import Mathlib

/-!
Verification of the AI_Recommender_System retrieval/ranking/evaluation core.

Shallow embedding, in Lean 4, of the core algorithms of the repository:

* `services/api/app/services/cf_inference.py` (collaborative-filtering recommender,
  artifact mode and co-occurrence/popularity fallback mode),
* `hybrid_ranker.py` (BM25-backed lexical search, item-to-item similarity),
* `embedding_store.py` (embedding nearest-neighbour store),
* `common/rank_blender.py` (weighted score blending),
* `eval.py` (leave-one-out holdout construction for offline evaluation),

together with theorems settling the behavioural claims about that code.

Modelling conventions:

* Python `dict`s are association lists with Python's update semantics
  (updating an existing key keeps its position, a new key is appended at the end;
  iteration is in insertion order).  `dictOf` replays a sequence of insertions.
* Python `float` scores are modelled as `ℚ`; the `-inf` mask written into a score
  row is modelled as `⊥ : WithBot ℚ` (so `np.isfinite` is `≠ ⊥`).
* `numpy` ascending `argsort` is modelled as a stable insertion sort of the index
  range by value (numpy's sort of a small array is exactly an insertion sort, and
  the claims proved about order never depend on the arrangement of tied values
  beyond what every correct sort guarantees).  `np.argpartition(row, -k)[-k:]` is
  modelled as the last `k` indices of that sorted order, a valid partition result.
* Strings are compared, as in CPython, lexicographically by code point: `s.data`
  (the list of characters) under the lexicographic order on `List Char`.
-/

namespace RecSys

/-- First-occurrence de-duplication, the order in which a Python `dict`
(or the insertion-ordered sets built from one) iterates its keys. -/
def pyDedup {α : Type} [DecidableEq α] : List α → List α
  | [] => []
  | a :: l => a :: (pyDedup l).filter (fun b => b ≠ a)

theorem mem_pyDedup {α : Type} [DecidableEq α] {x : α} :
    ∀ {l : List α}, x ∈ pyDedup l ↔ x ∈ l := by
  intro l
  induction l with
  | nil => simp [pyDedup]
  | cons a t ih =>
    by_cases hx : x = a
    · simp [pyDedup, hx]
    · simp [pyDedup, hx, List.mem_filter, ih]

theorem nodup_pyDedup {α : Type} [DecidableEq α] : ∀ l : List α, (pyDedup l).Nodup := by
  intro l
  induction l with
  | nil => simp [pyDedup]
  | cons a t ih =>
    refine List.Pairwise.cons ?_ (ih.filter _)
    intro b hb h
    exact (of_decide_eq_true (List.mem_filter.mp hb).2) h.symm

/-! ## Python dictionaries as association lists -/

/-- Model of `d.get(k)`: the value at the first (and, for dicts, only) binding of `k`. -/
def dictGet? {κ ν : Type} [DecidableEq κ] : List (κ × ν) → κ → Option ν
  | [], _ => none
  | p :: d, k => if p.1 = k then some p.2 else dictGet? d k

/-- Model of `d.get(k, v₀)`. -/
def dictGetD {κ ν : Type} [DecidableEq κ] (d : List (κ × ν)) (k : κ) (v₀ : ν) : ν :=
  (dictGet? d k).getD v₀

/-- The key sequence of a dict. -/
def dictKeys {κ ν : Type} (d : List (κ × ν)) : List κ := d.map Prod.fst

/-- Model of `d[k] = v`: update in place if the key exists, else append the new binding. -/
def dictSet {κ ν : Type} [DecidableEq κ] (d : List (κ × ν)) (k : κ) (v : ν) : List (κ × ν) :=
  if k ∈ dictKeys d then d.map (fun p => if p.1 = k then (k, v) else p) else d ++ [(k, v)]

/-- Replay a sequence of insertions into an initially empty dict
(the semantics of a Python dict comprehension). -/
def dictOf {κ ν : Type} [DecidableEq κ] (ps : List (κ × ν)) : List (κ × ν) :=
  ps.foldl (fun d p => dictSet d p.1 p.2) []

/-- Model of `d[k] = d.get(k, 0) + v`, the accumulation step used throughout the fallback scorer. -/
def bump {κ : Type} [DecidableEq κ] (d : List (κ × ℚ)) (k : κ) (v : ℚ) : List (κ × ℚ) :=
  dictSet d k (dictGetD d k 0 + v)

theorem dictGet?_cons {κ ν : Type} [DecidableEq κ] (p : κ × ν) (d : List (κ × ν)) (k : κ) :
    dictGet? (p :: d) k = if p.1 = k then some p.2 else dictGet? d k := rfl

theorem dictGet?_update {κ ν : Type} [DecidableEq κ] (k k' : κ) (v : ν) :
    ∀ d : List (κ × ν),
      dictGet? (d.map (fun p => if p.1 = k then (k, v) else p)) k'
        = if k' = k then (if k ∈ dictKeys d then some v else none) else dictGet? d k' := by
  intro d
  induction d with
  | nil => by_cases hk : k' = k <;> simp [dictGet?, dictKeys, hk]
  | cons p t ih =>
    by_cases hp : p.1 = k
    · by_cases hk : k' = k
      · subst hk
        simp [dictGet?_cons, dictKeys, hp, ih]
      · have hk1 : ¬ (k = k') := fun h => hk h.symm
        have hk2 : ¬ (p.1 = k') := fun h => hk ((hp.symm.trans h).symm)
        simp only [List.map_cons, hp, if_true]
        rw [dictGet?_cons, dictGet?_cons]
        simp only [if_neg hk1, if_neg hk2, ih, if_neg hk]
    · by_cases hpk : p.1 = k'
      · have hk : ¬ k' = k := fun h => hp (hpk.trans h)
        simp only [List.map_cons, hp, if_false]
        rw [dictGet?_cons, dictGet?_cons]
        simp only [if_pos hpk, if_neg hk]
      · simp only [List.map_cons, hp, if_false]
        rw [dictGet?_cons, dictGet?_cons]
        simp only [if_neg hpk, ih]
        by_cases hk : k' = k
        · subst hk
          simp only [if_true, dictKeys, List.map_cons]
          have hne : ¬ k' = p.1 := fun h => hp h.symm
          by_cases hmem : k' ∈ List.map Prod.fst t
          · simp [hmem, hne]
          · simp [hmem, hne]
        · simp [hk]

theorem dictGet?_append_single {κ ν : Type} [DecidableEq κ] (k k' : κ) (v : ν) :
    ∀ d : List (κ × ν),
      dictGet? (d ++ [(k, v)]) k' = (dictGet? d k').or (if k = k' then some v else none) := by
  intro d
  induction d with
  | nil => simp [dictGet?, dictGet?_cons]
  | cons p t ih =>
    by_cases hpk : p.1 = k'
    · simp only [List.cons_append]
      rw [dictGet?_cons, dictGet?_cons]
      simp [hpk]
    · simp only [List.cons_append]
      rw [dictGet?_cons, dictGet?_cons]
      simp [hpk, ih]

theorem dictGet?_eq_none_of_not_mem {κ ν : Type} [DecidableEq κ] {k : κ} :
    ∀ {d : List (κ × ν)}, k ∉ dictKeys d → dictGet? d k = none := by
  intro d
  induction d with
  | nil => intro _; rfl
  | cons p t ih =>
    intro h
    simp only [dictKeys, List.map_cons, List.mem_cons] at h
    push_neg at h
    rw [dictGet?_cons, if_neg (fun (he : p.1 = k) => h.1 he.symm)]
    exact ih (fun hm => h.2 hm)

theorem dictGet?_dictSet {κ ν : Type} [DecidableEq κ] (d : List (κ × ν)) (k k' : κ) (v : ν) :
    dictGet? (dictSet d k v) k' = if k' = k then some v else dictGet? d k' := by
  unfold dictSet
  by_cases hmem : k ∈ dictKeys d
  · simp only [hmem, if_true]
    rw [dictGet?_update]
    by_cases hk : k' = k <;> simp [hk, hmem]
  · simp only [hmem, if_false]
    rw [dictGet?_append_single]
    by_cases hk : k' = k
    · subst hk
      rw [dictGet?_eq_none_of_not_mem hmem]
      simp
    · rw [if_neg (fun (he : k = k') => hk he.symm), if_neg hk]
      rcases h : dictGet? d k' with _ | w <;> simp [Option.or]

theorem dictGetD_bump {κ : Type} [DecidableEq κ] (d : List (κ × ℚ)) (k k' : κ) (v : ℚ) :
    dictGetD (bump d k v) k' 0 = dictGetD d k' 0 + if k' = k then v else 0 := by
  unfold bump dictGetD
  rw [dictGet?_dictSet]
  by_cases hk : k' = k
  · subst hk; simp [dictGetD]
  · simp [hk]

theorem dictKeys_update {κ ν : Type} [DecidableEq κ] (d : List (κ × ν)) (k : κ) (v : ν) :
    dictKeys (d.map (fun p => if p.1 = k then (k, v) else p)) = dictKeys d := by
  unfold dictKeys
  rw [List.map_map]
  apply List.map_congr_left
  intro p _
  by_cases hp : p.1 = k <;> simp [hp]

theorem mem_dictKeys_dictSet {κ ν : Type} [DecidableEq κ] (d : List (κ × ν)) (k k' : κ) (v : ν) :
    k' ∈ dictKeys (dictSet d k v) ↔ k' ∈ dictKeys d ∨ k' = k := by
  unfold dictSet
  by_cases hmem : k ∈ dictKeys d
  · rw [if_pos hmem, dictKeys_update]
    constructor
    · exact Or.inl
    · rintro (h | rfl)
      · exact h
      · exact hmem
  · rw [if_neg hmem]
    unfold dictKeys
    rw [List.map_append]
    simp

theorem nodup_dictKeys_dictSet {κ ν : Type} [DecidableEq κ] (d : List (κ × ν)) (k : κ) (v : ν)
    (h : (dictKeys d).Nodup) : (dictKeys (dictSet d k v)).Nodup := by
  unfold dictSet
  by_cases hmem : k ∈ dictKeys d
  · rw [if_pos hmem, dictKeys_update]
    exact h
  · rw [if_neg hmem]
    unfold dictKeys at *
    rw [List.map_append]
    simp only [List.map_cons, List.map_nil]
    rw [List.nodup_append]
    exact ⟨h, List.nodup_singleton k, by simpa using fun hk => hmem hk⟩

theorem mem_of_dictGet?_eq_some {κ ν : Type} [DecidableEq κ] {k : κ} {v : ν} :
    ∀ {d : List (κ × ν)}, dictGet? d k = some v → (k, v) ∈ d := by
  intro d
  induction d with
  | nil => intro h; simp [dictGet?] at h
  | cons p t ih =>
    intro h
    by_cases hp : p.1 = k
    · rw [dictGet?_cons, if_pos hp] at h
      have hpe : (k, v) = p := by
        cases p with
        | mk a b =>
          simp only at hp
          simp only [Option.some.injEq] at h
          simp [Prod.mk.injEq, hp, h]
      exact List.mem_cons.mpr (Or.inl hpe)
    · rw [dictGet?_cons, if_neg hp] at h
      exact List.mem_cons_of_mem p (ih h)

theorem foldl_dictSet_subset {κ ν : Type} [DecidableEq κ] :
    ∀ (ps : List (κ × ν)) (init : List (κ × ν)) (q : κ × ν),
      q ∈ ps.foldl (fun d p => dictSet d p.1 p.2) init → q ∈ init ∨ q ∈ ps := by
  intro ps
  induction ps with
  | nil => intro init q h; exact Or.inl h
  | cons p t ih =>
    intro init q h
    rcases ih (dictSet init p.1 p.2) q h with h' | h'
    · unfold dictSet at h'
      by_cases hmem : p.1 ∈ dictKeys init
      · rw [if_pos hmem] at h'
        obtain ⟨r, hr, hre⟩ := List.mem_map.mp h'
        by_cases hr1 : r.1 = p.1
        · right
          rw [← hre]
          simp only [hr1, if_true]
          exact List.mem_cons.mpr (Or.inl (by cases p; rfl))
        · left
          rw [← hre]
          simp only [hr1, if_false]
          exact hr
      · rw [if_neg hmem] at h'
        rcases List.mem_append.mp h' with h'' | h''
        · exact Or.inl h''
        · right
          apply List.mem_cons.mpr
          left
          cases p
          simpa using h''
    · exact Or.inr (List.mem_cons_of_mem p h')

theorem mem_dictOf {κ ν : Type} [DecidableEq κ] {ps : List (κ × ν)} {q : κ × ν}
    (h : q ∈ dictOf ps) : q ∈ ps := by
  rcases foldl_dictSet_subset ps [] q h with h' | h'
  · simp at h'
  · exact h'

/-! ## Generic fold lemmas -/

/-- If every step of a fold changes an observation `g` by a step-determined delta,
the fold changes it by the sum of the deltas. -/
theorem foldl_delta {D α : Type} (f : D → α → D) (g : D → ℚ) (δ : α → ℚ) :
    ∀ (xs : List α) (init : D), (∀ d a, a ∈ xs → g (f d a) = g d + δ a) →
      g (xs.foldl f init) = g init + (xs.map δ).sum := by
  intro xs
  induction xs with
  | nil => intro init _; simp
  | cons a t ih =>
    intro init h
    simp only [List.foldl_cons, List.map_cons, List.sum_cons]
    rw [ih (f init a) (fun d b hb => h d b (List.mem_cons_of_mem a hb)),
      h init a (List.mem_cons_self a t)]
    ring

/-- If every step of a fold preserves a predicate, the fold does. -/
theorem foldl_preserve {D α : Type} (P : D → Prop) (f : D → α → D) :
    ∀ (xs : List α) (init : D), (∀ d a, a ∈ xs → P d → P (f d a)) → P init →
      P (xs.foldl f init) := by
  intro xs
  induction xs with
  | nil => intro init _ h; exact h
  | cons a t ih =>
    intro init h h0
    exact ih (f init a) (fun d b hb => h d b (List.mem_cons_of_mem a hb))
      (h init a (List.mem_cons_self a t) h0)

/-- If every step of a fold extends an observed proposition by a step condition,
the fold observes the disjunction over the steps. -/
theorem foldl_prop_iff {D α : Type} (g : D → Prop) (f : D → α → D) (C : α → Prop) :
    ∀ (xs : List α) (init : D), (∀ d a, a ∈ xs → (g (f d a) ↔ g d ∨ C a)) →
      (g (xs.foldl f init) ↔ g init ∨ ∃ a ∈ xs, C a) := by
  intro xs
  induction xs with
  | nil => intro init _; simp
  | cons a t ih =>
    intro init h
    simp only [List.foldl_cons]
    rw [ih (f init a) (fun d b hb => h d b (List.mem_cons_of_mem a hb)),
      h init a (List.mem_cons_self a t)]
    constructor
    · rintro ((h' | h') | ⟨b, hb, h'⟩)
      · exact Or.inl h'
      · exact Or.inr ⟨a, List.mem_cons_self a t, h'⟩
      · exact Or.inr ⟨b, List.mem_cons_of_mem a hb, h'⟩
    · rintro (h' | ⟨b, hb, h'⟩)
      · exact Or.inl (Or.inl h')
      · rcases List.mem_cons.mp hb with rfl | hb
        · exact Or.inl (Or.inr h')
        · exact Or.inr ⟨b, hb, h'⟩

/-- Sum of a keyed selection over a list with `Nodup` keys: picking the value of
the unique entry with the given key. -/
theorem sum_filter_key_eq_getD {κ : Type} [DecidableEq κ] :
    ∀ (d : List (κ × ℚ)), (dictKeys d).Nodup → ∀ t : κ,
      ((d.filter (fun p => p.1 = t)).map Prod.snd).sum = dictGetD d t 0 := by
  intro d
  induction d with
  | nil => intro _ t; simp [dictGetD, dictGet?]
  | cons p l ih =>
    intro hnd t
    have hnd' : (dictKeys l).Nodup := (List.nodup_cons.mp hnd).2
    by_cases hp : p.1 = t
    · have hnot : t ∉ dictKeys l := hp ▸ (List.nodup_cons.mp hnd).1
      have hfilter : l.filter (fun q => decide (q.1 = t)) = [] := by
        rw [List.filter_eq_nil_iff]
        intro q hq
        simp only [decide_eq_true_eq]
        intro h
        exact hnot (h ▸ List.mem_map_of_mem Prod.fst hq)
      have hcond : (decide (p.1 = t)) = true := by simp [hp]
      simp only [List.filter_cons, hcond, if_true, List.map_cons, List.sum_cons,
        hfilter, List.map_nil, List.sum_nil, add_zero]
      simp [dictGetD, dictGet?_cons, hp]
    · have hcond : (decide (p.1 = t)) = false := by simp [hp]
      simp only [List.filter_cons, hcond, Bool.false_eq_true, if_false]
      rw [ih hnd' t]
      simp [dictGetD, dictGet?_cons, hp]

/-! ## Sorting infrastructure

`numpy.argsort` (ascending, as used by the sources) is modelled as a stable
insertion sort of the index range `0, …, n-1`, comparing indices by value. -/

/-- Compare two indices by the values they point at. -/
def idxRel {α : Type} [LinearOrder α] (val : Nat → α) : Nat → Nat → Prop :=
  fun i j => val i ≤ val j

instance {α : Type} [LinearOrder α] (val : Nat → α) : DecidableRel (idxRel val) :=
  fun i j => inferInstanceAs (Decidable (val i ≤ val j))

instance {α : Type} [LinearOrder α] (val : Nat → α) : IsTotal Nat (idxRel val) :=
  ⟨fun i j => le_total (val i) (val j)⟩

instance {α : Type} [LinearOrder α] (val : Nat → α) : IsTrans Nat (idxRel val) :=
  ⟨fun _ _ _ hij hjk => le_trans hij hjk⟩

/-- Model of `np.argsort(a)` for an array of length `n` given as `val`. -/
def argsortAsc {α : Type} [LinearOrder α] (val : Nat → α) (n : Nat) : List Nat :=
  List.insertionSort (idxRel val) (List.range n)

theorem argsortAsc_sorted {α : Type} [LinearOrder α] (val : Nat → α) (n : Nat) :
    (argsortAsc val n).Pairwise (fun i j => val i ≤ val j) :=
  List.sorted_insertionSort (idxRel val) (List.range n)

theorem argsortAsc_perm {α : Type} [LinearOrder α] (val : Nat → α) (n : Nat) :
    (argsortAsc val n).Perm (List.range n) :=
  List.perm_insertionSort (idxRel val) (List.range n)

theorem argsortAsc_length {α : Type} [LinearOrder α] (val : Nat → α) (n : Nat) :
    (argsortAsc val n).length = n := by
  rw [(argsortAsc_perm val n).length_eq, List.length_range]

theorem mem_argsortAsc {α : Type} [LinearOrder α] (val : Nat → α) (n : Nat) (j : Nat) :
    j ∈ argsortAsc val n ↔ j < n := by
  rw [(argsortAsc_perm val n).mem_iff, List.mem_range]

theorem argsortAsc_nodup {α : Type} [LinearOrder α] (val : Nat → α) (n : Nat) :
    (argsortAsc val n).Nodup :=
  (argsortAsc_perm val n).symm.nodup (List.nodup_range n)

/-- Elements of the prefix of a `Pairwise`-ordered list relate to elements of the
corresponding suffix. -/
theorem pairwise_take_drop {α : Type} {r : α → α → Prop} {l : List α}
    (h : l.Pairwise r) (k : Nat) :
    ∀ x ∈ l.take k, ∀ y ∈ l.drop k, r x y := by
  have := List.take_append_drop k l
  rw [← this] at h
  exact (List.pairwise_append.mp h).2.2

/-- Reading a list back off through `getD` over its index range. -/
theorem map_getD_range {α : Type} (d : α) :
    ∀ l : List α, (List.range l.length).map (fun i => l.getD i d) = l := by
  intro l
  induction l with
  | nil => simp
  | cons a t ih =>
    have hfun : ((fun i => (a :: t).getD i d) ∘ Nat.succ) = fun i => t.getD i d := by
      funext i
      simp [List.getD_cons_succ]
    simp only [List.length_cons, List.range_succ_eq_map, List.map_cons, List.map_map,
      List.getD_cons_zero, hfun, ih]

/-! ## Counting and lookup lemmas -/

theorem dictGetD_dictSet {κ ν : Type} [DecidableEq κ] (d : List (κ × ν)) (k k' : κ)
    (v v₀ : ν) : dictGetD (dictSet d k v) k' v₀ = if k' = k then v else dictGetD d k' v₀ := by
  unfold dictGetD
  rw [dictGet?_dictSet]
  by_cases h : k' = k <;> simp [h]

theorem mem_dictSet {κ ν : Type} [DecidableEq κ] {d : List (κ × ν)} {k : κ} {v : ν}
    {q : κ × ν} (h : q ∈ dictSet d k v) : q ∈ d ∨ q = (k, v) := by
  unfold dictSet at h
  by_cases hmem : k ∈ dictKeys d
  · rw [if_pos hmem] at h
    obtain ⟨r, hr, hre⟩ := List.mem_map.mp h
    by_cases hr1 : r.1 = k
    · right; rw [← hre]; simp [hr1]
    · left; rw [← hre]; simp only [hr1, if_false]; exact hr
  · rw [if_neg hmem] at h
    rcases List.mem_append.mp h with h' | h'
    · exact Or.inl h'
    · right; simpa using h'

theorem dictGetD_of_mem_nodup {κ : Type} [DecidableEq κ] {k : κ} {v : ℚ} :
    ∀ {d : List (κ × ℚ)}, (dictKeys d).Nodup → (k, v) ∈ d → dictGetD d k 0 = v := by
  intro d
  induction d with
  | nil => intro _ h; simp at h
  | cons p t ih =>
    intro hnd hmem
    rcases List.mem_cons.mp hmem with rfl | hmem'
    · simp [dictGetD, dictGet?_cons]
    · have hk : p.1 ≠ k := by
        intro he
        exact (List.nodup_cons.mp hnd).1
          (he ▸ List.mem_map_of_mem Prod.fst hmem')
      rw [dictGetD, dictGet?_cons, if_neg hk]
      exact ih (List.nodup_cons.mp hnd).2 hmem'

theorem dictGetD_map_pair {α : Type} [DecidableEq α] (g : α → ℚ) (t : α) :
    ∀ (l : List α), t ∈ l → dictGetD (l.map (fun it => (it, g it))) t 0 = g t := by
  intro l
  induction l with
  | nil => intro h; simp at h
  | cons a r ih =>
    intro ht
    by_cases ha : a = t
    · simp [dictGetD, dictGet?_cons, ha]
    · rw [List.map_cons, dictGetD, dictGet?_cons, if_neg ha]
      refine ih ?_
      rcases List.mem_cons.mp ht with h | h
      · exact absurd h.symm ha
      · exact h

/-- Sum of an indicator over a list counts the matching elements. -/
theorem sum_map_ite_count {α : Type} (p : α → Prop) [DecidablePred p] :
    ∀ (l : List α),
      (l.map (fun x => if p x then (1 : ℚ) else 0)).sum
        = ((l.filter (fun x => p x)).length : ℚ) := by
  intro l
  induction l with
  | nil => simp
  | cons a t ih =>
    by_cases h : p a
    · have hc : (decide (p a)) = true := by simp [h]
      simp only [List.map_cons, List.sum_cons, if_pos h, ih, List.filter_cons, hc, if_true,
        List.length_cons]
      push_cast
      ring
    · have hc : (decide (p a)) = false := by simp [h]
      simp only [List.map_cons, List.sum_cons, if_neg h, ih, List.filter_cons, hc,
        Bool.false_eq_true, if_false, zero_add]

/-- Sum of a keyed constant over a duplicate-free list. -/
theorem sum_map_ite_eq_of_nodup {α : Type} [DecidableEq α] (x : α) (c : ℚ) :
    ∀ (l : List α), l.Nodup →
      (l.map (fun a => if x = a then c else 0)).sum = if x ∈ l then c else 0 := by
  intro l
  induction l with
  | nil => simp
  | cons a t ih =>
    intro hnd
    obtain ⟨ha, hnd'⟩ := List.nodup_cons.mp hnd
    by_cases hx : x = a
    · subst hx
      have hnot : x ∉ t := ha
      rw [List.map_cons, List.sum_cons, if_pos rfl, ih hnd', if_neg hnot,
        if_pos (List.mem_cons_self x t), add_zero]
    · rw [List.map_cons, List.sum_cons, if_neg hx, ih hnd', zero_add]
      by_cases hmem : x ∈ t
      · rw [if_pos hmem, if_pos (List.mem_cons_of_mem a hmem)]
      · rw [if_neg hmem, if_neg (by
          intro h
          rcases List.mem_cons.mp h with h' | h'
          · exact hx h'
          · exact hmem h')]

/-- In a duplicate-free list, the elements equal to `x` that satisfy `q` number one
or zero. -/
theorem length_filter_eq_of_nodup {α : Type} [DecidableEq α] (x : α) (q : α → Prop)
    [DecidablePred q] :
    ∀ (l : List α), l.Nodup →
      (l.filter (fun b => x = b ∧ q b)).length = if x ∈ l ∧ q x then 1 else 0 := by
  intro l
  induction l with
  | nil => simp
  | cons a t ih =>
    intro hnd
    obtain ⟨ha, hnd'⟩ := List.nodup_cons.mp hnd
    by_cases hx : x = a
    · subst hx
      have hfil : t.filter (fun b => decide (x = b ∧ q b)) = [] := by
        rw [List.filter_eq_nil_iff]
        intro b hb
        simp only [decide_eq_true_eq, not_and]
        intro he
        exact absurd (he ▸ hb) ha
      by_cases hq : q x
      · have hc : (decide (x = x ∧ q x)) = true := by simp [hq]
        rw [List.filter_cons]
        simp only [hc, if_true, hfil, List.length_cons, List.length_nil]
        have hcond : x ∈ x :: t ∧ q x := ⟨List.mem_cons_self x t, hq⟩
        rw [if_pos hcond]
        simp [hq]
      · have hc : (decide (x = x ∧ q x)) = false := by simp [hq]
        rw [List.filter_cons]
        simp only [hc, Bool.false_eq_true, if_false, hfil, List.length_nil]
        have hcond : ¬ (x ∈ x :: t ∧ q x) := fun h => hq h.2
        rw [if_neg hcond]
        simp [hq]
    · have hc : (decide (x = a ∧ q a)) = false := by simp [hx]
      simp only [List.filter_cons, hc, Bool.false_eq_true, if_false, ih hnd']
      by_cases hmem : x ∈ t ∧ q x
      · rw [if_pos hmem, if_pos ⟨List.mem_cons_of_mem a hmem.1, hmem.2⟩]
      · rw [if_neg hmem, if_neg (by
          intro h
          rcases List.mem_cons.mp h.1 with h' | h'
          · exact hx h'
          · exact hmem ⟨h', h.2⟩)]

/-- Selecting the values at one key through an indicator equals summing the
filtered entries. -/
theorem sum_map_ite_key {κ : Type} [DecidableEq κ] (t : κ) (φ : ℚ → ℚ) :
    ∀ (l : List (κ × ℚ)),
      (l.map (fun p => if t = p.1 then φ p.2 else 0)).sum
        = ((l.filter (fun p => p.1 = t)).map (fun p => φ p.2)).sum := by
  intro l
  induction l with
  | nil => simp
  | cons p r ih =>
    by_cases hp : p.1 = t
    · have hc : (decide (p.1 = t)) = true := by simp [hp]
      simp only [List.map_cons, List.sum_cons, if_pos hp.symm, List.filter_cons, hc, if_true,
        List.map_cons, List.sum_cons, ih]
    · have hc : (decide (p.1 = t)) = false := by simp [hp]
      have hp' : ¬ (t = p.1) := fun h => hp h.symm
      simp only [List.map_cons, List.sum_cons, if_neg hp', List.filter_cons, hc,
        Bool.false_eq_true, if_false, ih, zero_add]

/-- A duplicate-free-keyed dict filtered at a present key is exactly its unique
binding. -/
theorem filter_key_singleton {κ : Type} [DecidableEq κ] (t : κ) :
    ∀ (l : List (κ × ℚ)), (dictKeys l).Nodup → t ∈ dictKeys l →
      l.filter (fun p => p.1 = t) = [(t, dictGetD l t 0)] := by
  intro l
  induction l with
  | nil => intro _ h; simp [dictKeys] at h
  | cons p r ih =>
    intro hnd hmem
    obtain ⟨hp1, hnd'⟩ := List.nodup_cons.mp hnd
    by_cases hp : p.1 = t
    · have hc : (decide (p.1 = t)) = true := by simp [hp]
      have hfil : r.filter (fun q => decide (q.1 = t)) = [] := by
        rw [List.filter_eq_nil_iff]
        intro q hq
        simp only [decide_eq_true_eq]
        intro he
        exact hp1 (hp ▸ he ▸ List.mem_map_of_mem Prod.fst hq)
      rw [List.filter_cons]
      simp only [hc, if_true, hfil]
      rw [dictGetD, dictGet?_cons, if_pos hp]
      cases p with
      | mk a b => simp only at hp; simp [hp]
    · have hc : (decide (p.1 = t)) = false := by simp [hp]
      have hmem' : t ∈ dictKeys r := by
        rcases List.mem_cons.mp hmem with h | h
        · exact absurd h.symm hp
        · exact h
      have hgd : dictGetD (p :: r) t 0 = dictGetD r t 0 := by
        unfold dictGetD
        rw [dictGet?_cons, if_neg hp]
      rw [List.filter_cons]
      simp only [hc, Bool.false_eq_true, if_false]
      rw [ih hnd' hmem', hgd]

/-! ## CF recommender (`services/api/app/services/cf_inference.py`) -/

namespace CF

abbrev ItemId := String

abbrev UserId := String

/-- The parsed contents of the three artifact files
(`scores.npy`, `user_ids.json`, `item_ids.json`):
`shape` and a flat row-major entry function for the loaded ndarray,
plus the two id lists. -/
structure ArtifactFiles where
  shape : List Nat
  entries : Nat → ℚ
  userIds : List String
  itemIds : List String

/-- A validated artifact: score matrix plus the two id maps, as built by
`_try_load_artifacts`. -/
structure Artifact where
  nUsers : Nat
  nItems : Nat
  entry : Nat → Nat → ℚ
  userToIdx : List (UserId × Nat)
  idxToItem : List ItemId

/-- Model of `{str(u): i for i, u in enumerate(user_ids)}` (later indices overwrite earlier
ones on a duplicated id). -/
def buildUserToIdx (userIds : List String) : List (UserId × Nat) :=
  RecSys.dictOf (userIds.enum.map (fun p => (p.2, p.1)))

/-- Model of `_try_load_artifacts`: `none` when any file is missing, when the loaded matrix is
not 2-dimensional, or when its shape differs from
`(len(user_to_idx), len(idx_to_item))`. -/
def tryLoadArtifacts : Option ArtifactFiles → Option Artifact
  | none => none
  | some f =>
    let userToIdx := buildUserToIdx f.userIds
    if f.shape.length ≠ 2 then none
    else if f.shape ≠ [userToIdx.length, f.itemIds.length] then none
    else some ⟨userToIdx.length, f.itemIds.length,
      (fun i j => f.entries (i * f.itemIds.length + j)), userToIdx, f.itemIds⟩

/-- Model of `CFInference` state: the optional artifact and the normalized
`(user_id, item_id)` rows of `ratings.csv` (the only two columns kept). -/
structure CFState where
  artifact : Option Artifact
  ratings : List (UserId × ItemId)

/-- Model of `self.user_items[u]`: the set of items of user `u`
(insertion-ordered de-duplication of the user's rows). -/
def userItemsList (ratings : List (UserId × ItemId)) (u : UserId) : List ItemId :=
  RecSys.pyDedup ((ratings.filter (fun r => r.1 = u)).map Prod.snd)

/-- The distinct users of the interaction table. -/
def distinctUsers (ratings : List (UserId × ItemId)) : List UserId :=
  RecSys.pyDedup (ratings.map Prod.fst)

/-- The distinct items of the interaction table. -/
def distinctItems (ratings : List (UserId × ItemId)) : List ItemId :=
  RecSys.pyDedup (ratings.map Prod.snd)

/-- Model of `self.item_pop[it]`: `value_counts` of the `item_id` column — the number of
interaction rows mentioning the item. -/
def itemPop (ratings : List (UserId × ItemId)) (it : ItemId) : Nat :=
  (ratings.filter (fun r => r.2 = it)).length

/-- Model of `self.item_pop.items()`, one `(item, count)` entry per distinct item. -/
def itemPopList (ratings : List (UserId × ItemId)) : List (ItemId × ℚ) :=
  (distinctItems ratings).map (fun it => (it, (itemPop ratings it : ℚ)))

/-- The nested co-occurrence dict `item -> {other_item: count}`. -/
abbrev CoTable := List (ItemId × List (ItemId × ℚ))

/-- Entry lookup in the nested dict, defaulting to `0`. -/
def coGet (d : CoTable) (a b : ItemId) : ℚ :=
  RecSys.dictGetD (RecSys.dictGetD d a []) b 0

/-- Model of `acc = d.setdefault(a, {}); acc[b] = acc.get(b, 0) + v`. -/
def bump2 (d : CoTable) (a b : ItemId) (v : ℚ) : CoTable :=
  RecSys.dictSet d a (RecSys.bump (RecSys.dictGetD d a []) b v)

/-- The inner loop of the co-occurrence builder: for one item `a` of a user's
item list, add one count for every other item of the same list.  (The source
skips equal positions `i == j`; since a user's item list is duplicate-free this
is the same as skipping equal values.) -/
def coAddRow (d : CoTable) (a : ItemId) (items : List ItemId) : CoTable :=
  items.foldl (fun d' b => if b = a then d' else bump2 d' a b 1) d

/-- One user's contribution to the co-occurrence table. -/
def coAddUser (d : CoTable) (items : List ItemId) : CoTable :=
  items.foldl (fun d' a => coAddRow d' a items) d

/-- Model of `self.co_counts`, folded over every user's item set.  (The counts are
iteration-order independent, so the iteration order of `self.user_items.values()`
is immaterial; first-appearance order is used here.) -/
def coCounts (ratings : List (UserId × ItemId)) : CoTable :=
  (distinctUsers ratings).foldl (fun d u => coAddUser d (userItemsList ratings u)) []

/-- The sort key of both fallback rankings:
`sorted(..., key=lambda x: (-x[1], x[0]))`, i.e. score descending, then item id
ascending (Python compares strings lexicographically by code point, which is the
lexicographic order on the character list). -/
def popRel : (ItemId × ℚ) → (ItemId × ℚ) → Prop :=
  fun a b => b.2 < a.2 ∨ (a.2 = b.2 ∧ a.1.data ≤ b.1.data)

instance : DecidableRel popRel :=
  fun a b => inferInstanceAs (Decidable (b.2 < a.2 ∨ (a.2 = b.2 ∧ a.1.data ≤ b.1.data)))

instance : IsTotal (ItemId × ℚ) popRel := by
  constructor
  intro a b
  rcases lt_trichotomy a.2 b.2 with h | h | h
  · exact Or.inr (Or.inl h)
  · rcases le_total a.1.data b.1.data with h2 | h2
    · exact Or.inl (Or.inr ⟨h, h2⟩)
    · exact Or.inr (Or.inr ⟨h.symm, h2⟩)
  · exact Or.inl (Or.inl h)

instance : IsTrans (ItemId × ℚ) popRel := by
  constructor
  intro a b c hab hbc
  rcases hab with h | ⟨he, hs⟩
  · rcases hbc with h2 | ⟨he2, _⟩
    · exact Or.inl (h2.trans h)
    · exact Or.inl (he2 ▸ h)
  · rcases hbc with h2 | ⟨he2, hs2⟩
    · exact Or.inl (he.symm ▸ h2)
    · exact Or.inr ⟨he.trans he2, hs.trans hs2⟩

/-- Model of `_popular_only` before truncation: `sorted(self.item_pop.items(), key=...)`. -/
def popRanked (ratings : List (UserId × ItemId)) : List (ItemId × ℚ) :=
  List.insertionSort popRel (itemPopList ratings)

/-- Model of `_popular_only(k)`. -/
def popularOnly (ratings : List (UserId × ItemId)) (k : Nat) : List ItemId :=
  ((popRanked ratings).take k).map Prod.fst

/-- The first loop of `_cooccurrence_recs`: for every seen item, add its
co-occurrence counts over the unseen candidates. -/
def coScoresBase (ratings : List (UserId × ItemId)) (uid : UserId) : List (ItemId × ℚ) :=
  (userItemsList ratings uid).foldl
    (fun acc a => (RecSys.dictGetD (coCounts ratings) a []).foldl
      (fun acc' p => if p.1 ∈ userItemsList ratings uid then acc'
        else RecSys.bump acc' p.1 p.2) acc) []

/-- The fallback score dict of `_cooccurrence_recs`: co-occurrence totals with the
user's seen items, then `+ 0.01 * pop` for every unseen item. -/
def coScores (ratings : List (UserId × ItemId)) (uid : UserId) : List (ItemId × ℚ) :=
  (itemPopList ratings).foldl
    (fun acc p => if p.1 ∈ userItemsList ratings uid then acc
      else RecSys.bump acc p.1 (1 / 100 * p.2)) (coScoresBase ratings uid)

/-- Model of `_cooccurrence_recs(user_id, k)`. -/
def cooccurrenceRecs (ratings : List (UserId × ItemId)) (uid : UserId) (k : Nat) :
    List ItemId :=
  if userItemsList ratings uid = [] then popularOnly ratings k
  else ((List.insertionSort popRel (coScores ratings uid)).take k).map Prod.fst

/-- Model of `self.item_to_idx = {v: k for k, v in self.idx_to_item.items()}`. -/
def itemToIdx (art : Artifact) : List (ItemId × Nat) :=
  RecSys.dictOf (art.idxToItem.enum.map (fun p => (p.2, p.1)))

/-- Model of `self.idx_to_item[j]`. -/
def itemAt (art : Artifact) (j : Nat) : ItemId :=
  art.idxToItem.getD j ""

/-- The user's score row after masking: seen items are set to `-inf` (`⊥`). -/
def maskedRow (art : Artifact) (seen : List ItemId) (uidx : Nat) : Nat → WithBot ℚ :=
  fun j => if seen.any (fun it => RecSys.dictGet? (itemToIdx art) it = some j)
    then ⊥ else ((art.entry uidx j : ℚ) : WithBot ℚ)

/-- Python's `l[-k:]` for `k` as used in `np.argpartition(row, -k)[-k:]`
(`l[-0:]` is the whole list). -/
def pySliceLast {α : Type} (l : List α) (k : Nat) : List α :=
  if k = 0 then l else l.drop (l.length - k)

/-- The index pipeline of `_recs_from_artifacts`:
`topk_idx = np.argpartition(row, -k)[-k:]` (modelled as the top-`k` block of the
ascending argsort, a valid partition result), then
`topk_idx = topk_idx[np.argsort(row[topk_idx])[::-1]]`. -/
def topkIdx (row : Nat → WithBot ℚ) (n k : Nat) : List Nat :=
  let part := pySliceLast (argsortAsc row n) k
  let inner := argsortAsc (fun i => row (part.getD i 0)) part.length
  (inner.map (fun i => part.getD i 0)).reverse

/-- Model of `_recs_from_artifacts(user_id, k)`.  The `.error` case models the `ValueError`
numpy raises from `np.argpartition` when `kth = -k` is out of range for the row
(that is, when `n_items < k`, or when the row is empty). -/
def recsFromArtifacts (st : CFState) (art : Artifact) (uid : UserId) (k : Nat) :
    Except Unit (List ItemId) :=
  match RecSys.dictGet? art.userToIdx uid with
  | none => .ok (popularOnly st.ratings k)
  | some uidx =>
    let seen := userItemsList st.ratings uid
    let row := maskedRow art seen uidx
    if art.nItems < max k 1 then .error ()
    else .ok (((topkIdx row art.nItems k).filter (fun j => row j ≠ ⊥)).map (itemAt art))

/-- Model of `recommend_for_user(user_id, k)` (the class method): artifact path if artifacts
were loaded, recovering to the co-occurrence path if the artifact lookup raises;
fallback path otherwise; finally `recs[:k]`, each item wrapped as
`{"item_id": it}` (the wrapper is omitted here). -/
def recommend (st : CFState) (uid : UserId) (k : Nat) : List ItemId :=
  match st.artifact with
  | some art =>
    match recsFromArtifacts st art uid k with
    | .ok recs => recs.take k
    | .error _ => (cooccurrenceRecs st.ratings uid k).take k
  | none => (cooccurrenceRecs st.ratings uid k).take k

/-! ### Properties of the artifact top-`k` index pipeline -/

theorem pySliceLast_eq_drop {α : Type} (l : List α) (k : Nat) (hk : 1 ≤ k) :
    pySliceLast l k = l.drop (l.length - k) := by
  unfold pySliceLast
  rw [if_neg (by omega)]

theorem topkIdx_sorted (row : Nat → WithBot ℚ) (n k : Nat) :
    (topkIdx row n k).Pairwise (fun i j => row j ≤ row i) := by
  unfold topkIdx
  rw [List.pairwise_reverse]
  rw [List.pairwise_map]
  exact argsortAsc_sorted _ _

theorem topkIdx_perm (row : Nat → WithBot ℚ) (n k : Nat) :
    (topkIdx row n k).Perm (pySliceLast (argsortAsc row n) k) := by
  unfold topkIdx
  refine (List.reverse_perm _).trans ?_
  have h1 : (argsortAsc (fun i => row ((pySliceLast (argsortAsc row n) k).getD i 0))
        (pySliceLast (argsortAsc row n) k).length).Perm
      (List.range (pySliceLast (argsortAsc row n) k).length) := argsortAsc_perm _ _
  have h2 := h1.map (fun i => (pySliceLast (argsortAsc row n) k).getD i 0)
  rw [map_getD_range] at h2
  exact h2

theorem part_length (row : Nat → WithBot ℚ) (n k : Nat) (hk : 1 ≤ k) (hkn : k ≤ n) :
    (pySliceLast (argsortAsc row n) k).length = k := by
  simp only [pySliceLast_eq_drop _ _ hk, List.length_drop, argsortAsc_length]
  omega

theorem topkIdx_length (row : Nat → WithBot ℚ) (n k : Nat) (hk : 1 ≤ k) (hkn : k ≤ n) :
    (topkIdx row n k).length = k := by
  rw [(topkIdx_perm row n k).length_eq, part_length row n k hk hkn]

theorem mem_topkIdx_lt (row : Nat → WithBot ℚ) (n k : Nat) (hk : 1 ≤ k) {j : Nat}
    (hj : j ∈ topkIdx row n k) : j < n := by
  have h1 := (topkIdx_perm row n k).mem_iff.mp hj
  rw [pySliceLast_eq_drop _ _ hk] at h1
  have h2 : j ∈ argsortAsc row n := List.mem_of_mem_drop h1
  exact (mem_argsortAsc row n j).mp h2

/-- Dominance: a column excluded from the selected block scores no higher than any
selected column. -/
theorem topkIdx_dominant (row : Nat → WithBot ℚ) (n k : Nat) (hk : 1 ≤ k) {j : Nat}
    (hjn : j < n) (hj : j ∉ topkIdx row n k) :
    ∀ i ∈ topkIdx row n k, row j ≤ row i := by
  intro i hi
  have his := (topkIdx_perm row n k).mem_iff.mp hi
  rw [pySliceLast_eq_drop _ _ hk] at his
  have hjs : j ∈ argsortAsc row n := (mem_argsortAsc row n j).mpr hjn
  have hjd : j ∉ (argsortAsc row n).drop ((argsortAsc row n).length - k) := by
    intro hmem
    exact hj ((topkIdx_perm row n k).mem_iff.mpr (by rwa [pySliceLast_eq_drop _ _ hk]))
  have hjt : j ∈ (argsortAsc row n).take ((argsortAsc row n).length - k) := by
    rcases List.mem_append.mp
        (by rw [List.take_append_drop ((argsortAsc row n).length - k) (argsortAsc row n)]
            exact hjs) with h | h
    · exact h
    · exact absurd h hjd
  exact pairwise_take_drop (argsortAsc_sorted row n) _ j hjt i his

theorem topkIdx_nodup (row : Nat → WithBot ℚ) (n k : Nat) (hk : 1 ≤ k) :
    (topkIdx row n k).Nodup := by
  refine (topkIdx_perm row n k).symm.nodup ?_
  rw [pySliceLast_eq_drop _ _ hk]
  exact (argsortAsc_nodup row n).sublist (List.drop_sublist _ _)

/-- The selected columns of the artifact path: the sorted top-`k` block of the
masked row, restricted to finite scores. -/
def artifactSel (art : Artifact) (ratings : List (UserId × ItemId))
    (uid : UserId) (uidx k : Nat) : List Nat :=
  (topkIdx (maskedRow art (userItemsList ratings uid) uidx) art.nItems k).filter
    (fun j => maskedRow art (userItemsList ratings uid) uidx j ≠ ⊥)

theorem artifactSel_subset_topkIdx (art : Artifact) (ratings : List (UserId × ItemId))
    (uid : UserId) (uidx k : Nat) {j : Nat} (hj : j ∈ artifactSel art ratings uid uidx k) :
    j ∈ topkIdx (maskedRow art (userItemsList ratings uid) uidx) art.nItems k :=
  (List.mem_filter.mp hj).1

theorem recsFromArtifacts_known (art : Artifact) (ratings : List (UserId × ItemId))
    (uid : UserId) (uidx k : Nat)
    (hu : RecSys.dictGet? art.userToIdx uid = some uidx)
    (hk : 1 ≤ k) (hkn : k ≤ art.nItems) :
    recsFromArtifacts ⟨some art, ratings⟩ art uid k
      = .ok ((artifactSel art ratings uid uidx k).map (itemAt art)) := by
  have hcond : ¬ (art.nItems < max k 1) := by omega
  simp only [recsFromArtifacts, hu]
  rw [if_neg hcond]
  rfl

theorem artifactSel_length_le (art : Artifact) (ratings : List (UserId × ItemId))
    (uid : UserId) (uidx k : Nat) (hk : 1 ≤ k) (hkn : k ≤ art.nItems) :
    (artifactSel art ratings uid uidx k).length ≤ k := by
  unfold artifactSel
  calc ((topkIdx _ art.nItems k).filter _).length
      ≤ (topkIdx (maskedRow art (userItemsList ratings uid) uidx) art.nItems k).length :=
        List.length_filter_le _ _
    _ = k := topkIdx_length _ _ _ hk hkn

theorem recommend_artifact_ok (art : Artifact) (ratings : List (UserId × ItemId))
    (uid : UserId) (k : Nat) (recs : List ItemId)
    (h : recsFromArtifacts ⟨some art, ratings⟩ art uid k = .ok recs) :
    recommend ⟨some art, ratings⟩ uid k = recs.take k := by
  show (match recsFromArtifacts ⟨some art, ratings⟩ art uid k with
    | .ok recs => recs.take k
    | .error _ => (cooccurrenceRecs ratings uid k).take k) = recs.take k
  rw [h]

theorem recommend_artifact_err (art : Artifact) (ratings : List (UserId × ItemId))
    (uid : UserId) (k : Nat)
    (h : recsFromArtifacts ⟨some art, ratings⟩ art uid k = .error ()) :
    recommend ⟨some art, ratings⟩ uid k = (cooccurrenceRecs ratings uid k).take k := by
  show (match recsFromArtifacts ⟨some art, ratings⟩ art uid k with
    | .ok recs => recs.take k
    | .error _ => (cooccurrenceRecs ratings uid k).take k)
      = (cooccurrenceRecs ratings uid k).take k
  rw [h]

theorem popularOnly_take (ratings : List (UserId × ItemId)) (k : Nat) :
    (popularOnly ratings k).take k = popularOnly ratings k := by
  apply List.take_of_length_le
  unfold popularOnly
  rw [List.length_map, List.length_take]
  exact min_le_left _ _

/-- Claim C1, amended.  Artifact mode, known user, for `1 ≤ k ≤ n_items`:
`recommend` returns the finite-score part of the selected top-`k` block of the
user's masked score row, in non-increasing score order; each returned column is
unmasked (finite) and in range; any finite column left out scores no higher than
every returned column, and when such a column exists, exactly `k` columns are
returned; at most `k` columns are returned.  For a user absent from the
artifact's user map, `recommend` returns the global popularity top-`k`.

(The claim's original tie clause — equal-score items in ascending column
order — and its unbounded quantification over `k` are refuted by
`claim1_counterexample`: the composition `np.argpartition(...)[-k:]`,
`np.argsort(...)[::-1]` reverses the order of tied columns rather than
preserving it, and for `k > n_items` the artifact lookup raises and the call
falls back to co-occurrence scoring.) -/
theorem claim1_artifact_mode_topk (art : Artifact) (ratings : List (UserId × ItemId))
    (uid : UserId) (uidx k : Nat)
    (hu : RecSys.dictGet? art.userToIdx uid = some uidx)
    (hk : 1 ≤ k) (hkn : k ≤ art.nItems) :
    recommend ⟨some art, ratings⟩ uid k
        = (artifactSel art ratings uid uidx k).map (itemAt art)
    ∧ (artifactSel art ratings uid uidx k).Pairwise
        (fun i j => maskedRow art (userItemsList ratings uid) uidx j
          ≤ maskedRow art (userItemsList ratings uid) uidx i)
    ∧ (∀ j ∈ artifactSel art ratings uid uidx k,
        maskedRow art (userItemsList ratings uid) uidx j ≠ ⊥ ∧ j < art.nItems)
    ∧ (∀ j, j < art.nItems → maskedRow art (userItemsList ratings uid) uidx j ≠ ⊥ →
        j ∉ artifactSel art ratings uid uidx k →
        (∀ i ∈ artifactSel art ratings uid uidx k,
          maskedRow art (userItemsList ratings uid) uidx j
            ≤ maskedRow art (userItemsList ratings uid) uidx i)
        ∧ (artifactSel art ratings uid uidx k).length = k)
    ∧ (artifactSel art ratings uid uidx k).length ≤ k
    ∧ (∀ uid2, RecSys.dictGet? art.userToIdx uid2 = none →
        recommend ⟨some art, ratings⟩ uid2 k = popularOnly ratings k) := by
  set row := maskedRow art (userItemsList ratings uid) uidx with hrow
  have hsel_le := artifactSel_length_le art ratings uid uidx k hk hkn
  refine ⟨?_, ?_, ?_, ?_, hsel_le, ?_⟩
  · rw [recommend_artifact_ok art ratings uid k _
      (recsFromArtifacts_known art ratings uid uidx k hu hk hkn)]
    apply List.take_of_length_le
    rw [List.length_map]
    exact hsel_le
  · exact (topkIdx_sorted row art.nItems k).filter _
  · intro j hj
    refine ⟨of_decide_eq_true (List.mem_filter.mp hj).2, ?_⟩
    exact mem_topkIdx_lt row art.nItems k hk (List.mem_filter.mp hj).1
  · intro j hjn hjfin hjsel
    have hjtop : j ∉ topkIdx row art.nItems k := by
      intro hmem
      exact hjsel (List.mem_filter.mpr ⟨hmem, decide_eq_true hjfin⟩)
    have hdom := topkIdx_dominant row art.nItems k hk hjn hjtop
    refine ⟨fun i hi => hdom i (List.mem_filter.mp hi).1, ?_⟩
    have hall : ∀ b ∈ topkIdx row art.nItems k, (fun b => decide (row b ≠ ⊥)) b = true := by
      intro b hb
      have hle := hdom b hb
      have : row b ≠ ⊥ := by
        intro hbot
        rw [hbot, le_bot_iff] at hle
        exact hjfin hle
      simpa using this
    unfold artifactSel
    rw [← hrow, List.filter_eq_self.mpr hall]
    exact topkIdx_length row art.nItems k hk hkn
  · intro uid2 hu2
    have h2 : recsFromArtifacts ⟨some art, ratings⟩ art uid2 k = .ok (popularOnly ratings k) := by
      simp only [recsFromArtifacts, hu2]
    rw [recommend_artifact_ok art ratings uid2 k _ h2]
    exact popularOnly_take ratings k

/-- A small valid artifact used to witness the artifact-mode theorem:
one user `u1`, two items `A`, `B`, scores `[1, 2]`. -/
def c1wArt : Artifact :=
  ⟨1, 2, fun _ j => if j = 0 then 1 else 2, [("u1", 0)], ["A", "B"]⟩

theorem claim1_artifact_mode_topk_witness :
    RecSys.dictGet? c1wArt.userToIdx "u1" = some 0 ∧ 1 ≤ 1 ∧ 1 ≤ c1wArt.nItems
    ∧ (recommend ⟨some c1wArt, [("u1", "B")]⟩ "u1" 1
          = (artifactSel c1wArt [("u1", "B")] "u1" 0 1).map (itemAt c1wArt)
      ∧ (artifactSel c1wArt [("u1", "B")] "u1" 0 1).Pairwise
          (fun i j => maskedRow c1wArt (userItemsList [("u1", "B")] "u1") 0 j
            ≤ maskedRow c1wArt (userItemsList [("u1", "B")] "u1") 0 i)
      ∧ (∀ j ∈ artifactSel c1wArt [("u1", "B")] "u1" 0 1,
          maskedRow c1wArt (userItemsList [("u1", "B")] "u1") 0 j ≠ ⊥ ∧ j < c1wArt.nItems)
      ∧ (∀ j, j < c1wArt.nItems →
          maskedRow c1wArt (userItemsList [("u1", "B")] "u1") 0 j ≠ ⊥ →
          j ∉ artifactSel c1wArt [("u1", "B")] "u1" 0 1 →
          (∀ i ∈ artifactSel c1wArt [("u1", "B")] "u1" 0 1,
            maskedRow c1wArt (userItemsList [("u1", "B")] "u1") 0 j
              ≤ maskedRow c1wArt (userItemsList [("u1", "B")] "u1") 0 i)
          ∧ (artifactSel c1wArt [("u1", "B")] "u1" 0 1).length = 1)
      ∧ (artifactSel c1wArt [("u1", "B")] "u1" 0 1).length ≤ 1
      ∧ (∀ uid2, RecSys.dictGet? c1wArt.userToIdx uid2 = none →
          recommend ⟨some c1wArt, [("u1", "B")]⟩ uid2 1 = popularOnly [("u1", "B")] 1)) :=
  ⟨by decide, by decide, by decide,
    claim1_artifact_mode_topk c1wArt [("u1", "B")] "u1" 0 1 (by decide) (by decide) (by decide)⟩

/-- The artifact files of the C1 counterexample: a valid 1 × 1 artifact
(user `u1`, single item `A`, score `1`). -/
def c1Files : ArtifactFiles := ⟨[1, 1], fun _ => 1, ["u1"], ["A"]⟩

/-- The artifact `_try_load_artifacts` builds from `c1Files`. -/
def c1Art : Artifact :=
  ⟨1, 1, fun i j => c1Files.entries (i * c1Files.itemIds.length + j), [("u1", 0)], ["A"]⟩

/-- Claim C1, counterexample.  The claim quantifies over *every* positive `k`; take
`k = 2` with the valid 1 × 1 artifact `c1Art` (loaded from `c1Files`) and
interactions `[("u1", "B")]`.  User `u1` is in the artifact's user map, and item
`A` (column 0) has the finite masked score `1`, so the claim requires the
`k = 2` recommendation to contain `A`.  The code instead raises inside
`np.argpartition` (`kth = -2` is out of range for one column), recovers into the
co-occurrence fallback, and returns the empty list. -/
theorem claim1_counterexample :
    tryLoadArtifacts (some c1Files) = some c1Art
    ∧ RecSys.dictGet? c1Art.userToIdx "u1" = some 0
    ∧ maskedRow c1Art (userItemsList [("u1", "B")] "u1") 0 0 ≠ ⊥
    ∧ itemAt c1Art 0 = "A"
    ∧ recommend ⟨some c1Art, [("u1", "B")]⟩ "u1" 2 = [] := by
  refine ⟨rfl, by decide, by decide, by decide, ?_⟩
  decide

/-! ### Safety lemmas for `recommend` -/

theorem recommend_none (ratings : List (UserId × ItemId)) (uid : UserId) (k : Nat) :
    recommend ⟨none, ratings⟩ uid k = (cooccurrenceRecs ratings uid k).take k := rfl

theorem recommend_length_le (st : CFState) (uid : UserId) (k : Nat) :
    (recommend st uid k).length ≤ k := by
  rcases st with ⟨art?, ratings⟩
  cases art? with
  | none => rw [recommend_none]; exact List.length_take_le _ _
  | some art =>
    cases h : recsFromArtifacts ⟨some art, ratings⟩ art uid k with
    | ok recs =>
      rw [recommend_artifact_ok _ _ _ _ _ h]
      exact List.length_take_le _ _
    | error e =>
      cases e
      rw [recommend_artifact_err _ _ _ _ h]
      exact List.length_take_le _ _

theorem dictKeys_itemPopList (ratings : List (UserId × ItemId)) :
    RecSys.dictKeys (itemPopList ratings) = distinctItems ratings := by
  unfold RecSys.dictKeys itemPopList
  rw [List.map_map]
  exact List.map_id'' (fun _ => rfl) _

/-- The item ids of a truncated `popRel`-sorted score dict are duplicate-free
whenever the dict's keys are. -/
theorem ranked_fst_nodup (l : List (ItemId × ℚ)) (h : (RecSys.dictKeys l).Nodup) (k : Nat) :
    (((List.insertionSort popRel l).take k).map Prod.fst).Nodup := by
  have hperm : (List.map Prod.fst (List.insertionSort popRel l)).Perm (RecSys.dictKeys l) :=
    (List.perm_insertionSort popRel l).map Prod.fst
  have hnd : (List.map Prod.fst (List.insertionSort popRel l)).Nodup :=
    hperm.symm.nodup h
  rw [List.map_take]
  exact ((List.take_sublist _ _).nodup hnd)

theorem popularOnly_nodup (ratings : List (UserId × ItemId)) (k : Nat) :
    (popularOnly ratings k).Nodup := by
  unfold popularOnly popRanked
  exact ranked_fst_nodup _ (dictKeys_itemPopList ratings ▸ nodup_pyDedup _) k

theorem coScoresBase_keys_nodup (ratings : List (UserId × ItemId)) (uid : UserId) :
    (RecSys.dictKeys (coScoresBase ratings uid)).Nodup := by
  unfold coScoresBase
  apply RecSys.foldl_preserve (fun d => (RecSys.dictKeys d).Nodup)
  · intro d a _ hd
    apply RecSys.foldl_preserve (fun d => (RecSys.dictKeys d).Nodup)
    · intro d' p _ hd'
      by_cases hmem : p.1 ∈ userItemsList ratings uid
      · rwa [if_pos hmem]
      · rw [if_neg hmem]
        exact RecSys.nodup_dictKeys_dictSet _ _ _ hd'
    · exact hd
  · simp [RecSys.dictKeys]

theorem coScores_keys_nodup (ratings : List (UserId × ItemId)) (uid : UserId) :
    (RecSys.dictKeys (coScores ratings uid)).Nodup := by
  unfold coScores
  apply RecSys.foldl_preserve (fun d => (RecSys.dictKeys d).Nodup)
  · intro d p _ hd
    by_cases hmem : p.1 ∈ userItemsList ratings uid
    · rwa [if_pos hmem]
    · rw [if_neg hmem]
      exact RecSys.nodup_dictKeys_dictSet _ _ _ hd
  · exact coScoresBase_keys_nodup ratings uid

theorem cooccurrenceRecs_nodup (ratings : List (UserId × ItemId)) (uid : UserId) (k : Nat) :
    (cooccurrenceRecs ratings uid k).Nodup := by
  unfold cooccurrenceRecs
  by_cases hseen : userItemsList ratings uid = []
  · rw [if_pos hseen]
    exact popularOnly_nodup ratings k
  · rw [if_neg hseen]
    exact ranked_fst_nodup _ (coScores_keys_nodup ratings uid) k

theorem take_nodup {α : Type} {l : List α} (h : l.Nodup) (k : Nat) : (l.take k).Nodup :=
  (List.take_sublist _ _).nodup h

/-- The mapped artifact selection is duplicate-free when the artifact's item list is. -/
theorem artifactSel_map_nodup (art : Artifact) (ratings : List (UserId × ItemId))
    (uid : UserId) (uidx k : Nat) (hk : 1 ≤ k)
    (hlen : art.nItems ≤ art.idxToItem.length) (hitems : art.idxToItem.Nodup) :
    ((artifactSel art ratings uid uidx k).map (itemAt art)).Nodup := by
  have hselnd : (artifactSel art ratings uid uidx k).Nodup :=
    (topkIdx_nodup _ art.nItems k hk).filter _
  apply List.Nodup.map_on _ hselnd
  intro i hi j hj hij
  have hi' : i < art.idxToItem.length :=
    lt_of_lt_of_le (mem_topkIdx_lt _ _ _ hk (artifactSel_subset_topkIdx _ _ _ _ _ hi)) hlen
  have hj' : j < art.idxToItem.length :=
    lt_of_lt_of_le (mem_topkIdx_lt _ _ _ hk (artifactSel_subset_topkIdx _ _ _ _ _ hj)) hlen
  rw [itemAt, itemAt, List.getD_eq_getElem _ _ hi', List.getD_eq_getElem _ _ hj'] at hij
  exact (hitems.getElem_inj_iff).mp hij

/-- Claim C2, amended.  For every artifact-file configuration, ratings table,
`user_id` and `k`: `recommend` (a total function — every internal artifact
failure is caught and recovered into the fallback path) returns at most `k`
items, and the result has no duplicate item ids *provided* the artifact's item
list (when an artifact is present) has pairwise-distinct ids.  In fallback mode
the output is unconditionally duplicate-free.

(The unconditional no-duplicates reading is refuted by `claim2_counterexample`:
an artifact whose `item_ids.json` repeats an id passes the load-time shape check
and makes artifact-mode output repeat that id.) -/
theorem claim2_output_safety (files? : Option ArtifactFiles)
    (ratings : List (UserId × ItemId)) (uid : UserId) (k : Nat) :
    (recommend ⟨tryLoadArtifacts files?, ratings⟩ uid k).length ≤ k
    ∧ ((∀ f, files? = some f → f.itemIds.Nodup) →
        (recommend ⟨tryLoadArtifacts files?, ratings⟩ uid k).Nodup) := by
  refine ⟨recommend_length_le _ _ _, ?_⟩
  intro hnd
  rcases Nat.eq_zero_or_pos k with rfl | hk
  · have hlen := recommend_length_le ⟨tryLoadArtifacts files?, ratings⟩ uid 0
    rw [Nat.le_zero, List.length_eq_zero] at hlen
    rw [hlen]
    exact List.nodup_nil
  · cases files? with
    | none =>
      rw [show tryLoadArtifacts none = none from rfl, recommend_none]
      exact take_nodup (cooccurrenceRecs_nodup ratings uid k) k
    | some f =>
      have hitems : f.itemIds.Nodup := hnd f rfl
      by_cases h1 : f.shape.length ≠ 2
      · rw [show tryLoadArtifacts (some f) = none from by
          simp only [tryLoadArtifacts]; rw [if_pos h1], recommend_none]
        exact take_nodup (cooccurrenceRecs_nodup ratings uid k) k
      · by_cases h2 : f.shape ≠ [(buildUserToIdx f.userIds).length, f.itemIds.length]
        · rw [show tryLoadArtifacts (some f) = none from by
            simp only [tryLoadArtifacts]; rw [if_neg h1, if_pos h2], recommend_none]
          exact take_nodup (cooccurrenceRecs_nodup ratings uid k) k
        · have hload : tryLoadArtifacts (some f)
              = some ⟨(buildUserToIdx f.userIds).length, f.itemIds.length,
                  (fun i j => f.entries (i * f.itemIds.length + j)),
                  buildUserToIdx f.userIds, f.itemIds⟩ := by
            simp only [tryLoadArtifacts]
            rw [if_neg h1, if_neg h2]
          rw [hload]
          set art : Artifact := ⟨(buildUserToIdx f.userIds).length, f.itemIds.length,
            (fun i j => f.entries (i * f.itemIds.length + j)),
            buildUserToIdx f.userIds, f.itemIds⟩ with hart
          cases hu : RecSys.dictGet? art.userToIdx uid with
          | none =>
            have hok : recsFromArtifacts ⟨some art, ratings⟩ art uid k
                = .ok (popularOnly ratings k) := by
              simp only [recsFromArtifacts, hu]
            rw [recommend_artifact_ok _ _ _ _ _ hok]
            exact take_nodup (popularOnly_nodup ratings k) k
          | some uidx =>
            by_cases hlt : art.nItems < max k 1
            · have herr : recsFromArtifacts ⟨some art, ratings⟩ art uid k = .error () := by
                simp only [recsFromArtifacts, hu]
                rw [if_pos hlt]
              rw [recommend_artifact_err _ _ _ _ herr]
              exact take_nodup (cooccurrenceRecs_nodup ratings uid k) k
            · have hkn : k ≤ art.nItems := by omega
              rw [recommend_artifact_ok _ _ _ _ _
                (recsFromArtifacts_known art ratings uid uidx k hu hk hkn)]
              refine take_nodup ?_ k
              refine artifactSel_map_nodup art ratings uid uidx k hk ?_ hitems
              exact le_of_eq rfl

/-- Valid artifact files used to witness the safety theorem. -/
def c2wFiles : ArtifactFiles := ⟨[1, 2], fun i => if i = 0 then 1 else 2, ["u1"], ["A", "B"]⟩

theorem claim2_output_safety_witness :
    (recommend ⟨tryLoadArtifacts (some c2wFiles), [("u1", "B")]⟩ "u1" 2).length ≤ 2
    ∧ ((∀ f, some c2wFiles = some f → f.itemIds.Nodup) →
        (recommend ⟨tryLoadArtifacts (some c2wFiles), [("u1", "B")]⟩ "u1" 2).Nodup) :=
  claim2_output_safety (some c2wFiles) [("u1", "B")] "u1" 2

/-- Artifact files whose item list repeats the id `A`: they pass the load-time
shape check (`1 × 2` matrix, one distinct user, two item columns). -/
def c2Files : ArtifactFiles := ⟨[1, 2], fun i => if i = 0 then 1 else 2, ["u1"], ["A", "A"]⟩

/-- The artifact `_try_load_artifacts` builds from `c2Files`. -/
def c2Art : Artifact :=
  ⟨1, 2, fun i j => c2Files.entries (i * c2Files.itemIds.length + j), [("u1", 0)], ["A", "A"]⟩

/-- Claim C2, counterexample.  With the duplicated-id artifact `c2Art` (a valid load:
the shape check passes) and interactions `[("u2", "X")]`, the call
`recommend("u1", 2)` goes down the artifact path (`u1` is row 0, nothing is
masked) and returns `["A", "A"]` — two equal item ids, refuting the claim that
the output never contains duplicate item_ids. -/
theorem claim2_counterexample :
    tryLoadArtifacts (some c2Files) = some c2Art
    ∧ recommend ⟨some c2Art, [("u2", "X")]⟩ "u1" 2 = ["A", "A"]
    ∧ ¬ (recommend ⟨some c2Art, [("u2", "X")]⟩ "u1" 2).Nodup := by
  refine ⟨rfl, by decide, by decide⟩

/-- Claim C3.  If the artifact files exist but the loaded matrix is not a
2-dimensional array of shape exactly `(len(user map), len(item map))`, the whole
artifact is rejected at load (`_try_load_artifacts` returns the absent triple),
`has_artifacts` (`self.scores is not None`, i.e. `isSome`) is `false`, and every
`recommend` call runs the co-occurrence/popularity fallback. -/
theorem claim3_shape_guard (f : ArtifactFiles) (ratings : List (UserId × ItemId))
    (uid : UserId) (k : Nat)
    (hbad : f.shape.length ≠ 2
      ∨ f.shape ≠ [(buildUserToIdx f.userIds).length, f.itemIds.length]) :
    tryLoadArtifacts (some f) = none
    ∧ (tryLoadArtifacts (some f)).isSome = false
    ∧ recommend ⟨tryLoadArtifacts (some f), ratings⟩ uid k
        = (cooccurrenceRecs ratings uid k).take k := by
  have hnone : tryLoadArtifacts (some f) = none := by
    simp only [tryLoadArtifacts]
    rcases hbad with h | h
    · rw [if_pos h]
    · by_cases h1 : f.shape.length ≠ 2
      · rw [if_pos h1]
      · rw [if_neg h1, if_pos h]
  refine ⟨hnone, by rw [hnone]; rfl, by rw [hnone, recommend_none]⟩

/-- The spec's scenario: a matrix shaped for 3 users × 2 items while the id lists
name 3 users and 3 items. -/
def c3Files : ArtifactFiles := ⟨[3, 2], fun _ => 1, ["u1", "u2", "u3"], ["A", "B", "C"]⟩

theorem claim3_shape_guard_witness :
    (c3Files.shape.length ≠ 2
      ∨ c3Files.shape ≠ [(buildUserToIdx c3Files.userIds).length, c3Files.itemIds.length])
    ∧ (tryLoadArtifacts (some c3Files) = none
      ∧ (tryLoadArtifacts (some c3Files)).isSome = false
      ∧ recommend ⟨tryLoadArtifacts (some c3Files), [("u1", "A"), ("u1", "B")]⟩ "u1" 2
          = (cooccurrenceRecs [("u1", "A"), ("u1", "B")] "u1" 2).take 2) :=
  ⟨by decide, claim3_shape_guard c3Files [("u1", "A"), ("u1", "B")] "u1" 2 (by decide)⟩

/-! ### The co-occurrence table counts pairs -/

theorem coGet_bump2 (d : CoTable) (a b : ItemId) (v : ℚ) (a' b' : ItemId) :
    coGet (bump2 d a b v) a' b' = coGet d a' b' + if a' = a ∧ b' = b then v else 0 := by
  unfold coGet bump2
  rw [RecSys.dictGetD_dictSet]
  by_cases ha : a' = a
  · subst ha
    rw [if_pos rfl, RecSys.dictGetD_bump]
    by_cases hb : b' = b <;> simp [hb]
  · rw [if_neg ha]
    simp [ha]

theorem coGet_coAddRow (d : CoTable) (a : ItemId) (l : List ItemId) (a' b' : ItemId) :
    coGet (coAddRow d a l) a' b'
      = coGet d a' b'
        + ((l.filter (fun b => a' = a ∧ b' = b ∧ ¬ b = a)).length : ℚ) := by
  unfold coAddRow
  rw [RecSys.foldl_delta (fun d' b => if b = a then d' else bump2 d' a b 1)
    (fun d' => coGet d' a' b')
    (fun b => if a' = a ∧ b' = b ∧ ¬ b = a then (1 : ℚ) else 0) l d ?_]
  · rw [sum_map_ite_count (fun b => a' = a ∧ b' = b ∧ ¬ b = a) l]
  · intro d' b _
    dsimp only
    by_cases hba : b = a
    · rw [if_pos hba, if_neg (by simp [hba]), add_zero]
    · rw [if_neg hba, coGet_bump2]
      congr 1
      by_cases h : a' = a ∧ b' = b
      · rw [if_pos h, if_pos ⟨h.1, h.2, hba⟩]
      · rw [if_neg h, if_neg (fun hh => h ⟨hh.1, hh.2.1⟩)]

theorem coGet_coAddUser (d : CoTable) (items : List ItemId) (hnd : items.Nodup)
    (a' b' : ItemId) :
    coGet (coAddUser d items) a' b'
      = coGet d a' b' + if a' ∈ items ∧ b' ∈ items ∧ b' ≠ a' then 1 else 0 := by
  unfold coAddUser
  rw [RecSys.foldl_delta (fun d' a => coAddRow d' a items)
    (fun d' => coGet d' a' b')
    (fun a => ((items.filter (fun b => a' = a ∧ b' = b ∧ ¬ b = a)).length : ℚ)) items d
    (fun d' a _ => coGet_coAddRow d' a items a' b')]
  congr 1
  have hδ : ∀ a ∈ items,
      ((items.filter (fun b => a' = a ∧ b' = b ∧ ¬ b = a)).length : ℚ)
        = if a' = a then ((items.filter (fun b => b' = b ∧ ¬ b = a')).length : ℚ) else 0 := by
    intro a _
    by_cases ha : a' = a
    · subst ha
      rw [if_pos rfl]
      congr 2
      apply List.filter_congr
      intro b _
      simp
    · rw [if_neg ha]
      rw [show items.filter (fun b => a' = a ∧ b' = b ∧ ¬ b = a) = [] from by
        rw [List.filter_eq_nil_iff]
        intro b _
        simp [ha]]
      simp
  rw [List.map_congr_left hδ,
    sum_map_ite_eq_of_nodup a' ((items.filter (fun b => b' = b ∧ ¬ b = a')).length : ℚ)
      items hnd,
    length_filter_eq_of_nodup b' (fun b => ¬ b = a') items hnd]
  by_cases hmem : a' ∈ items
  · rw [if_pos hmem]
    by_cases hb : b' ∈ items ∧ ¬ b' = a'
    · rw [if_pos hb, if_pos ⟨hmem, hb.1, hb.2⟩]
      norm_num
    · rw [if_neg hb, if_neg (fun hh => hb ⟨hh.2.1, hh.2.2⟩)]
      norm_num
  · rw [if_neg hmem, if_neg (fun hh => hmem hh.1)]

/-- The number of users whose interaction sets contain both `a` and `b` — the
specification of the co-occurrence count for a pair of distinct items. -/
def specCoCount (ratings : List (UserId × ItemId)) (a b : ItemId) : Nat :=
  ((distinctUsers ratings).filter
    (fun u => a ∈ userItemsList ratings u ∧ b ∈ userItemsList ratings u)).length

theorem coGet_coCounts (ratings : List (UserId × ItemId)) (a' b' : ItemId) :
    coGet (coCounts ratings) a' b'
      = (((distinctUsers ratings).filter
          (fun u => a' ∈ userItemsList ratings u ∧ b' ∈ userItemsList ratings u
            ∧ b' ≠ a')).length : ℚ) := by
  unfold coCounts
  rw [RecSys.foldl_delta (fun d u => coAddUser d (userItemsList ratings u))
    (fun d => coGet d a' b')
    (fun u => if a' ∈ userItemsList ratings u ∧ b' ∈ userItemsList ratings u ∧ b' ≠ a'
      then (1 : ℚ) else 0)
    (distinctUsers ratings) []
    (fun d u _ => coGet_coAddUser d (userItemsList ratings u) (nodup_pyDedup _) a' b')]
  rw [sum_map_ite_count
    (fun u => a' ∈ userItemsList ratings u ∧ b' ∈ userItemsList ratings u ∧ b' ≠ a')
    (distinctUsers ratings)]
  simp [coGet, RecSys.dictGetD, RecSys.dictGet?]

/-- Every row of the co-occurrence table has duplicate-free keys. -/
def coRowsOk (d : CoTable) : Prop :=
  ∀ p ∈ d, (RecSys.dictKeys p.2).Nodup

theorem coRow_keys_nodup {d : CoTable} (h : coRowsOk d) (a : ItemId) :
    (RecSys.dictKeys (RecSys.dictGetD d a [])).Nodup := by
  unfold RecSys.dictGetD
  cases hget : RecSys.dictGet? d a with
  | none => simp [RecSys.dictKeys]
  | some r => exact h (a, r) (RecSys.mem_of_dictGet?_eq_some hget)

theorem coRowsOk_bump2 {d : CoTable} (h : coRowsOk d) (a b : ItemId) (v : ℚ) :
    coRowsOk (bump2 d a b v) := by
  intro q hq
  rcases RecSys.mem_dictSet hq with hq' | rfl
  · exact h q hq'
  · exact RecSys.nodup_dictKeys_dictSet _ _ _ (coRow_keys_nodup h a)

theorem coRowsOk_coCounts (ratings : List (UserId × ItemId)) :
    coRowsOk (coCounts ratings) := by
  unfold coCounts
  apply RecSys.foldl_preserve coRowsOk
  · intro d u _ hd
    unfold coAddUser
    apply RecSys.foldl_preserve coRowsOk
    · intro d' a _ hd'
      unfold coAddRow
      apply RecSys.foldl_preserve coRowsOk
      · intro d'' b _ hd''
        by_cases hba : b = a
        · rwa [if_pos hba]
        · rw [if_neg hba]
          exact coRowsOk_bump2 hd'' a b 1
      · exact hd'
    · exact hd
  · intro q hq
    simp at hq

theorem sum_map_ite_key_id {κ : Type} [DecidableEq κ] (t : κ) :
    ∀ (l : List (κ × ℚ)),
      (l.map (fun p => if t = p.1 then p.2 else 0)).sum
        = ((l.filter (fun p => p.1 = t)).map Prod.snd).sum := by
  intro l
  induction l with
  | nil => simp
  | cons p r ih =>
    by_cases hp : p.1 = t
    · have hc : (decide (p.1 = t)) = true := by simp [hp]
      simp only [List.map_cons, List.sum_cons, if_pos hp.symm, List.filter_cons, hc, if_true,
        List.map_cons, List.sum_cons, ih]
    · have hc : (decide (p.1 = t)) = false := by simp [hp]
      have hp' : ¬ (t = p.1) := fun h => hp h.symm
      simp only [List.map_cons, List.sum_cons, if_neg hp', List.filter_cons, hc,
        Bool.false_eq_true, if_false, ih, zero_add]

/-- Model of `dictGetD (coScoresBase …) t 0` is the total co-occurrence of `t` with the
user's seen items, for any unseen `t`. -/
theorem coScoresBase_getD (ratings : List (UserId × ItemId)) (uid : UserId) (t : ItemId)
    (ht : t ∉ userItemsList ratings uid) :
    RecSys.dictGetD (coScoresBase ratings uid) t 0
      = ((userItemsList ratings uid).map (fun a => coGet (coCounts ratings) a t)).sum := by
  unfold coScoresBase
  rw [RecSys.foldl_delta
    (fun acc a => (RecSys.dictGetD (coCounts ratings) a []).foldl
      (fun acc' p => if p.1 ∈ userItemsList ratings uid then acc'
        else RecSys.bump acc' p.1 p.2) acc)
    (fun d => RecSys.dictGetD d t 0)
    (fun a => coGet (coCounts ratings) a t)
    (userItemsList ratings uid) [] ?_]
  · simp [RecSys.dictGetD, RecSys.dictGet?]
  · intro d a _
    dsimp only
    rw [RecSys.foldl_delta
      (fun acc' p => if p.1 ∈ userItemsList ratings uid then acc'
        else RecSys.bump acc' p.1 p.2)
      (fun d' => RecSys.dictGetD d' t 0)
      (fun p => if t = p.1 then p.2 else 0)
      (RecSys.dictGetD (coCounts ratings) a []) d ?_]
    · rw [sum_map_ite_key_id t,
        RecSys.sum_filter_key_eq_getD _ (coRow_keys_nodup (coRowsOk_coCounts ratings) a) t]
      rfl
    · intro d' p _
      dsimp only
      by_cases hmem : p.1 ∈ userItemsList ratings uid
      · rw [if_pos hmem, if_neg (fun (h : t = p.1) => ht (h.symm ▸ hmem)), add_zero]
      · rw [if_neg hmem, RecSys.dictGetD_bump]

/-- Model of `dictGetD (coScores …) t 0`: the full fallback score of an unseen interaction
item: co-occurrence total plus `0.01 ×` popularity. -/
theorem coScores_getD (ratings : List (UserId × ItemId)) (uid : UserId) (t : ItemId)
    (ht : t ∉ userItemsList ratings uid) (htd : t ∈ distinctItems ratings) :
    RecSys.dictGetD (coScores ratings uid) t 0
      = ((userItemsList ratings uid).map (fun a => coGet (coCounts ratings) a t)).sum
        + 1 / 100 * (itemPop ratings t : ℚ) := by
  unfold coScores
  rw [RecSys.foldl_delta
    (fun acc p => if p.1 ∈ userItemsList ratings uid then acc
      else RecSys.bump acc p.1 (1 / 100 * p.2))
    (fun d => RecSys.dictGetD d t 0)
    (fun p => if t = p.1 then 1 / 100 * p.2 else 0)
    (itemPopList ratings) (coScoresBase ratings uid) ?_]
  · rw [coScoresBase_getD ratings uid t ht]
    congr 1
    rw [sum_map_ite_key t (fun v => 1 / 100 * v),
      filter_key_singleton t (itemPopList ratings)
        (by rw [dictKeys_itemPopList]; exact nodup_pyDedup _)
        (by rw [dictKeys_itemPopList]; exact htd)]
    unfold itemPopList
    rw [RecSys.dictGetD_map_pair (fun it => (itemPop ratings it : ℚ)) t
      (distinctItems ratings) htd]
    simp
  · intro d' p _
    dsimp only
    by_cases hmem : p.1 ∈ userItemsList ratings uid
    · rw [if_pos hmem, if_neg (fun (h : t = p.1) => ht (h.symm ▸ hmem)), add_zero]
    · rw [if_neg hmem, RecSys.dictGetD_bump]

theorem userItems_subset_distinct (ratings : List (UserId × ItemId)) (u : UserId) {x : ItemId}
    (hx : x ∈ userItemsList ratings u) : x ∈ distinctItems ratings := by
  unfold userItemsList at hx
  unfold distinctItems
  rw [RecSys.mem_pyDedup] at hx ⊢
  obtain ⟨r, hr, hre⟩ := List.mem_map.mp hx
  exact List.mem_map.mpr ⟨r, (List.mem_filter.mp hr).1, hre⟩

/-- Every key of every row of the co-occurrence table is an interaction item. -/
def coInv (ratings : List (UserId × ItemId)) (d : CoTable) : Prop :=
  ∀ q ∈ d, ∀ r ∈ q.2, r.1 ∈ distinctItems ratings

theorem coInv_bump2 (ratings : List (UserId × ItemId)) {d : CoTable}
    (h : coInv ratings d) (a b : ItemId) (hb : b ∈ distinctItems ratings) (v : ℚ) :
    coInv ratings (bump2 d a b v) := by
  intro q hq r hr
  rcases RecSys.mem_dictSet hq with hq' | rfl
  · exact h q hq' r hr
  · rcases RecSys.mem_dictSet hr with hr' | rfl
    · revert hr'
      unfold RecSys.dictGetD
      cases hget : RecSys.dictGet? d a with
      | none => intro hx; simp at hx
      | some row =>
        intro hx
        exact h (a, row) (RecSys.mem_of_dictGet?_eq_some hget) r hx
    · exact hb

theorem coInv_coCounts (ratings : List (UserId × ItemId)) :
    coInv ratings (coCounts ratings) := by
  unfold coCounts
  apply RecSys.foldl_preserve (coInv ratings)
  · intro d u hu hd
    unfold coAddUser
    apply RecSys.foldl_preserve (coInv ratings)
    · intro d' a _ hd'
      unfold coAddRow
      apply RecSys.foldl_preserve (coInv ratings)
      · intro d'' b hbmem hd''
        by_cases hba : b = a
        · rwa [if_pos hba]
        · rw [if_neg hba]
          exact coInv_bump2 ratings hd'' a b
            (userItems_subset_distinct ratings u hbmem) 1
      · exact hd'
    · exact hd
  · intro q hq
    simp at hq

theorem mem_dictKeys_bump {κ : Type} [DecidableEq κ] (d : List (κ × ℚ)) (k k' : κ) (v : ℚ) :
    k' ∈ RecSys.dictKeys (RecSys.bump d k v) ↔ k' ∈ RecSys.dictKeys d ∨ k' = k :=
  RecSys.mem_dictKeys_dictSet d k k' _

theorem mem_dictKeys_coScoresBase (ratings : List (UserId × ItemId)) (uid : UserId)
    (t : ItemId) :
    t ∈ RecSys.dictKeys (coScoresBase ratings uid)
      ↔ ∃ a ∈ userItemsList ratings uid,
          ∃ p ∈ RecSys.dictGetD (coCounts ratings) a [],
            ¬ p.1 ∈ userItemsList ratings uid ∧ t = p.1 := by
  unfold coScoresBase
  rw [RecSys.foldl_prop_iff (fun d => t ∈ RecSys.dictKeys d)
    (fun acc a => (RecSys.dictGetD (coCounts ratings) a []).foldl
      (fun acc' p => if p.1 ∈ userItemsList ratings uid then acc'
        else RecSys.bump acc' p.1 p.2) acc)
    (fun a => ∃ p ∈ RecSys.dictGetD (coCounts ratings) a [],
      ¬ p.1 ∈ userItemsList ratings uid ∧ t = p.1)
    (userItemsList ratings uid) [] ?_]
  · simp [RecSys.dictKeys]
  · intro d a _
    dsimp only
    rw [RecSys.foldl_prop_iff (fun d' => t ∈ RecSys.dictKeys d')
      (fun acc' p => if p.1 ∈ userItemsList ratings uid then acc'
        else RecSys.bump acc' p.1 p.2)
      (fun p => ¬ p.1 ∈ userItemsList ratings uid ∧ t = p.1)
      (RecSys.dictGetD (coCounts ratings) a []) d ?_]
    intro d' p _
    dsimp only
    by_cases hmem : p.1 ∈ userItemsList ratings uid
    · rw [if_pos hmem]
      constructor
      · exact Or.inl
      · rintro (h | ⟨hns, _⟩)
        · exact h
        · exact absurd hmem hns
    · rw [if_neg hmem, mem_dictKeys_bump]
      constructor
      · rintro (h | h)
        · exact Or.inl h
        · exact Or.inr ⟨hmem, h⟩
      · rintro (h | ⟨_, h⟩)
        · exact Or.inl h
        · exact Or.inr h

/-- The candidate set of the fallback scorer is exactly the unseen interaction
items. -/
theorem mem_dictKeys_coScores (ratings : List (UserId × ItemId)) (uid : UserId)
    (t : ItemId) :
    t ∈ RecSys.dictKeys (coScores ratings uid)
      ↔ (t ∈ distinctItems ratings ∧ t ∉ userItemsList ratings uid) := by
  unfold coScores
  rw [RecSys.foldl_prop_iff (fun d => t ∈ RecSys.dictKeys d)
    (fun acc p => if p.1 ∈ userItemsList ratings uid then acc
      else RecSys.bump acc p.1 (1 / 100 * p.2))
    (fun p => ¬ p.1 ∈ userItemsList ratings uid ∧ t = p.1)
    (itemPopList ratings) (coScoresBase ratings uid) ?_]
  · constructor
    · rintro (hbase | ⟨p, hp, hns, rfl⟩)
      · obtain ⟨a, _, p, hp, hns, rfl⟩ :=
          (mem_dictKeys_coScoresBase ratings uid _).mp hbase
        refine ⟨?_, hns⟩
        revert hp
        unfold RecSys.dictGetD
        cases hget : RecSys.dictGet? (coCounts ratings) a with
        | none => intro hx; simp at hx
        | some row =>
          intro hx
          exact coInv_coCounts ratings (a, row)
            (RecSys.mem_of_dictGet?_eq_some hget) p hx
      · obtain ⟨it, hit, hpe⟩ := List.mem_map.mp hp
        refine ⟨?_, hns⟩
        rw [← hpe] at *
        exact hit
    · rintro ⟨hd, hns⟩
      right
      exact ⟨(t, (itemPop ratings t : ℚ)), List.mem_map.mpr ⟨t, hd, rfl⟩, hns, rfl⟩
  · intro d p _
    dsimp only
    by_cases hmem : p.1 ∈ userItemsList ratings uid
    · rw [if_pos hmem]
      constructor
      · exact Or.inl
      · rintro (h | ⟨hns, _⟩)
        · exact h
        · exact absurd hmem hns
    · rw [if_neg hmem, mem_dictKeys_bump]
      constructor
      · rintro (h | h)
        · exact Or.inl h
        · exact Or.inr ⟨hmem, h⟩
      · rintro (h | ⟨_, h⟩)
        · exact Or.inl h
        · exact Or.inr h

/-- Claim C4.  Fallback mode, user with at least one seen item, positive `k`:
`recommend` returns the first `k` entries of the candidate ranking, where
(i) the candidates are exactly the unseen interaction items,
(ii) each candidate's score is its total co-occurrence count with the user's
seen items plus `0.01 ×` its global popularity count,
(iii) the co-occurrence table holds, for each ordered pair of distinct items,
the number of users whose interaction sets contain both (self-pairs excluded),
(iv) the ranking is ordered by descending score with ties broken by ascending
item id, and
(v) every returned candidate ranks at least as high as every truncated one. -/
theorem claim4_fallback_scoring (ratings : List (UserId × ItemId)) (uid : UserId) (k : Nat)
    (hk : 1 ≤ k) (hseen : userItemsList ratings uid ≠ []) :
    recommend ⟨none, ratings⟩ uid k
        = ((List.insertionSort popRel (coScores ratings uid)).take k).map Prod.fst
    ∧ (∀ t, t ∈ RecSys.dictKeys (coScores ratings uid)
        ↔ (t ∈ distinctItems ratings ∧ t ∉ userItemsList ratings uid))
    ∧ (∀ p ∈ List.insertionSort popRel (coScores ratings uid),
        p.1 ∈ distinctItems ratings ∧ p.1 ∉ userItemsList ratings uid
        ∧ p.2 = ((userItemsList ratings uid).map
              (fun a => (specCoCount ratings a p.1 : ℚ))).sum
            + 1 / 100 * (itemPop ratings p.1 : ℚ))
    ∧ (∀ a b : ItemId, b ≠ a →
        coGet (coCounts ratings) a b = (specCoCount ratings a b : ℚ))
    ∧ (∀ a : ItemId, coGet (coCounts ratings) a a = 0)
    ∧ (List.insertionSort popRel (coScores ratings uid)).Pairwise popRel
    ∧ (∀ p ∈ (List.insertionSort popRel (coScores ratings uid)).take k,
        ∀ q ∈ (List.insertionSort popRel (coScores ratings uid)).drop k, popRel p q) := by
  have hcoeq : ∀ a b : ItemId, b ≠ a →
      coGet (coCounts ratings) a b = (specCoCount ratings a b : ℚ) := by
    intro a b hne
    rw [coGet_coCounts]
    unfold specCoCount
    congr 2
    apply List.filter_congr
    intro u _
    simp [hne]
  refine ⟨?_, mem_dictKeys_coScores ratings uid, ?_, hcoeq, ?_, ?_, ?_⟩
  · rw [recommend_none]
    unfold cooccurrenceRecs
    rw [if_neg hseen]
    apply List.take_of_length_le
    rw [List.length_map, List.length_take]
    exact min_le_left _ _
  · intro p hp
    have hmem : p ∈ coScores ratings uid := (List.mem_insertionSort popRel).mp hp
    have hkey : p.1 ∈ RecSys.dictKeys (coScores ratings uid) :=
      List.mem_map_of_mem Prod.fst hmem
    obtain ⟨hd, hns⟩ := (mem_dictKeys_coScores ratings uid p.1).mp hkey
    refine ⟨hd, hns, ?_⟩
    have hval : RecSys.dictGetD (coScores ratings uid) p.1 0 = p.2 := by
      have := RecSys.dictGetD_of_mem_nodup (coScores_keys_nodup ratings uid)
        (show (p.1, p.2) ∈ coScores ratings uid from hmem)
      exact this
    rw [← hval, coScores_getD ratings uid p.1 hns hd]
    congr 1
    congr 1
    apply List.map_congr_left
    intro a ha
    have hne : p.1 ≠ a := fun he => hns (he ▸ ha)
    exact hcoeq a p.1 hne
  · intro a
    rw [coGet_coCounts]
    rw [show (distinctUsers ratings).filter
        (fun u => a ∈ userItemsList ratings u ∧ a ∈ userItemsList ratings u ∧ a ≠ a) = []
      from by
        rw [List.filter_eq_nil_iff]
        intro u _
        simp]
    simp
  · exact List.sorted_insertionSort popRel _
  · exact fun p hp q hq =>
      pairwise_take_drop (List.sorted_insertionSort popRel (coScores ratings uid)) k p hp q hq

/-- Interactions used to witness the fallback-scoring theorem: `u1` has seen
`A` and `B`; `u2` has seen `A` and `C`; so `C` co-occurs with `u1`'s item `A`. -/
def c4Ratings : List (UserId × ItemId) :=
  [("u1", "A"), ("u1", "B"), ("u2", "A"), ("u2", "C")]

theorem claim4_fallback_scoring_witness :
    1 ≤ 2 ∧ userItemsList c4Ratings "u1" ≠ []
    ∧ (recommend ⟨none, c4Ratings⟩ "u1" 2
          = ((List.insertionSort popRel (coScores c4Ratings "u1")).take 2).map Prod.fst
      ∧ (∀ t, t ∈ RecSys.dictKeys (coScores c4Ratings "u1")
          ↔ (t ∈ distinctItems c4Ratings ∧ t ∉ userItemsList c4Ratings "u1"))
      ∧ (∀ p ∈ List.insertionSort popRel (coScores c4Ratings "u1"),
          p.1 ∈ distinctItems c4Ratings ∧ p.1 ∉ userItemsList c4Ratings "u1"
          ∧ p.2 = ((userItemsList c4Ratings "u1").map
                (fun a => (specCoCount c4Ratings a p.1 : ℚ))).sum
              + 1 / 100 * (itemPop c4Ratings p.1 : ℚ))
      ∧ (∀ a b : ItemId, b ≠ a →
          coGet (coCounts c4Ratings) a b = (specCoCount c4Ratings a b : ℚ))
      ∧ (∀ a : ItemId, coGet (coCounts c4Ratings) a a = 0)
      ∧ (List.insertionSort popRel (coScores c4Ratings "u1")).Pairwise popRel
      ∧ (∀ p ∈ (List.insertionSort popRel (coScores c4Ratings "u1")).take 2,
          ∀ q ∈ (List.insertionSort popRel (coScores c4Ratings "u1")).drop 2, popRel p q)) :=
  ⟨by decide, by decide, claim4_fallback_scoring c4Ratings "u1" 2 (by decide) (by decide)⟩

theorem userItemsList_eq_nil_of_not_mem (ratings : List (UserId × ItemId)) (uid : UserId)
    (h : uid ∉ distinctUsers ratings) : userItemsList ratings uid = [] := by
  unfold userItemsList
  rw [show ratings.filter (fun r => r.1 = uid) = [] from by
    rw [List.filter_eq_nil_iff]
    intro r hr
    simp only [decide_eq_true_eq]
    intro he
    exact h ((RecSys.mem_pyDedup).mpr (he ▸ List.mem_map_of_mem Prod.fst hr))]
  rfl

/-- Claim C5.  Cold start: for a user absent from all interaction data — neither in
the ratings table nor in the artifact's user map when an artifact is present —
`recommend(user_id, k)` returns the first `k` items of the global popularity
ranking: every distinct interaction item, paired with its popularity count,
ordered by descending count with ties broken by ascending item id, the returned
block dominating the truncated one.  (`recommend` is a pure function of the
startup state, so repeated calls return the identical list.) -/
theorem claim5_cold_start (st : CFState) (uid : UserId) (k : Nat)
    (h1 : uid ∉ distinctUsers st.ratings)
    (h2 : ∀ art, st.artifact = some art → RecSys.dictGet? art.userToIdx uid = none) :
    recommend st uid k = ((popRanked st.ratings).take k).map Prod.fst
    ∧ (popRanked st.ratings).Pairwise popRel
    ∧ (∀ p ∈ popRanked st.ratings,
        p.2 = (itemPop st.ratings p.1 : ℚ) ∧ p.1 ∈ distinctItems st.ratings)
    ∧ (∀ t ∈ distinctItems st.ratings, (t, (itemPop st.ratings t : ℚ)) ∈ popRanked st.ratings)
    ∧ (∀ p ∈ (popRanked st.ratings).take k,
        ∀ q ∈ (popRanked st.ratings).drop k, popRel p q) := by
  rcases st with ⟨art?, ratings⟩
  refine ⟨?_, List.sorted_insertionSort popRel _, ?_, ?_, ?_⟩
  · cases art? with
    | none =>
      rw [recommend_none]
      unfold cooccurrenceRecs
      rw [if_pos (userItemsList_eq_nil_of_not_mem ratings uid h1)]
      exact popularOnly_take ratings k
    | some art =>
      have hok : recsFromArtifacts ⟨some art, ratings⟩ art uid k
          = .ok (popularOnly ratings k) := by
        simp only [recsFromArtifacts, h2 art rfl]
      rw [recommend_artifact_ok _ _ _ _ _ hok]
      exact popularOnly_take ratings k
  · intro p hp
    have hmem : p ∈ itemPopList ratings := (List.mem_insertionSort popRel).mp hp
    obtain ⟨it, hit, hpe⟩ := List.mem_map.mp hmem
    rw [← hpe]
    exact ⟨rfl, hit⟩
  · intro t ht
    exact (List.mem_insertionSort popRel).mpr (List.mem_map.mpr ⟨t, ht, rfl⟩)
  · exact fun p hp q hq =>
      pairwise_take_drop (List.sorted_insertionSort popRel (itemPopList ratings)) k p hp q hq

def c5Ratings : List (UserId × ItemId) := [("u1", "A"), ("u2", "A"), ("u2", "B")]

theorem claim5_cold_start_witness :
    "u3" ∉ distinctUsers c5Ratings
    ∧ (recommend ⟨none, c5Ratings⟩ "u3" 2 = ((popRanked c5Ratings).take 2).map Prod.fst
      ∧ (popRanked c5Ratings).Pairwise popRel
      ∧ (∀ p ∈ popRanked c5Ratings,
          p.2 = (itemPop c5Ratings p.1 : ℚ) ∧ p.1 ∈ distinctItems c5Ratings)
      ∧ (∀ t ∈ distinctItems c5Ratings,
          (t, (itemPop c5Ratings t : ℚ)) ∈ popRanked c5Ratings)
      ∧ (∀ p ∈ (popRanked c5Ratings).take 2,
          ∀ q ∈ (popRanked c5Ratings).drop 2, popRel p q)) :=
  ⟨by decide,
    claim5_cold_start ⟨none, c5Ratings⟩ "u3" 2 (by decide) (fun art h => nomatch h)⟩

end CF

/-! ## Hybrid ranker (`hybrid_ranker.py`) -/

namespace HR

/-- A catalog row as served by `ItemsRepo`. -/
structure Item where
  item_id : String
  title : String
  description : String
deriving DecidableEq

/-- One search result: `{"item_id", "title", "description", "score"}`. -/
structure SearchResult where
  item_id : String
  title : String
  description : String
  score : ℚ
deriving DecidableEq

/-- Maximal alphanumeric runs of a character stream (`[A-Za-z0-9]+` findall);
`cur` is the current run, reversed. -/
def tokRuns : List Char → List Char → List (List Char)
  | [], cur => if cur = [] then [] else [cur.reverse]
  | c :: cs, cur =>
    if c.isAlphanum then tokRuns cs (c :: cur)
    else if cur = [] then tokRuns cs [] else cur.reverse :: tokRuns cs []

/-- Model of `_tokenize`: the lowercased alphanumeric runs of the text. -/
def tokenize (s : String) : List String :=
  (tokRuns s.data []).map (fun cs => String.mk (cs.map Char.toLower))

/-- Model of `HybridRanker` state: the catalog rows and the lexical scorer.
`bm25Score q i` stands for `BM25Okapi(tokenized_corpus).get_scores(q)[i]`, the
library's score of document `i` for the tokenized query — a pure function of the
corpus (fixed at startup) and the query, always of the corpus's length. -/
structure Ranker where
  items : List Item
  bm25Score : List String → Nat → ℚ

/-- Model of `HybridRanker.search(query, k)`.  With no query tokens the result is empty.
`self.bm25 is None` exactly when the corpus is empty, and then the degraded
substring scan over the empty frame also returns no rows, so the empty-corpus
branch returns `[]`.  Otherwise `top_idx = scores.argsort()[::-1][:k]` and each
index is enriched from the catalog row. -/
def search (r : Ranker) (q : String) (k : Nat) : List SearchResult :=
  if tokenize q = [] then []
  else if r.items.length = 0 then []
  else
    ((RecSys.argsortAsc (r.bm25Score (tokenize q)) r.items.length).reverse.take k).map
      (fun i =>
        ⟨(r.items.getD i ⟨"", "", ""⟩).item_id, (r.items.getD i ⟨"", "", ""⟩).title,
          (r.items.getD i ⟨"", "", ""⟩).description, r.bm25Score (tokenize q) i⟩)

/-- Claim C6, amended.  For every query with at least one alphanumeric token, a
non-empty corpus, and every `k`: `search` returns at most `k` results, ordered
by non-increasing BM25 score.  (The claim's tie clause — equal-score documents
in original corpus order — is refuted by `claim6_counterexample`: reversing an
ascending argsort puts tied documents in *reverse* corpus order.) -/
theorem claim6_search_sorted (r : Ranker) (q : String) (k : Nat)
    (hq : tokenize q ≠ []) (hc : r.items ≠ []) :
    (search r q k).length ≤ k
    ∧ (search r q k).Pairwise (fun a b => b.score ≤ a.score) := by
  unfold search
  rw [if_neg hq, if_neg (fun h => hc (List.length_eq_zero.mp h))]
  constructor
  · rw [List.length_map]
    exact List.length_take_le _ _
  · rw [List.pairwise_map]
    have hs : (RecSys.argsortAsc (r.bm25Score (tokenize q)) r.items.length).reverse.Pairwise
        (fun i j => r.bm25Score (tokenize q) j ≤ r.bm25Score (tokenize q) i) :=
      List.pairwise_reverse.mpr (RecSys.argsortAsc_sorted _ _)
    exact List.Pairwise.sublist (List.take_sublist k _) hs

def c6wRanker : Ranker :=
  ⟨[⟨"A", "Space Opera", "a galaxy far away"⟩, ⟨"B", "Romance", "a love story"⟩],
    fun _ i => if i = 0 then 3 else 1⟩

theorem claim6_search_sorted_witness :
    tokenize "galaxy" ≠ [] ∧ c6wRanker.items ≠ []
    ∧ ((search c6wRanker "galaxy" 5).length ≤ 5
      ∧ (search c6wRanker "galaxy" 5).Pairwise (fun a b => b.score ≤ a.score)) :=
  ⟨by decide, by decide, claim6_search_sorted c6wRanker "galaxy" 5 (by decide) (by decide)⟩

/-- Two documents the scorer ties at `1`. -/
def c6Ranker : Ranker := ⟨[⟨"A", "", ""⟩, ⟨"B", "", ""⟩], fun _ _ => 1⟩

/-- Claim C6, counterexample.  Both documents score `1` (two identical documents
receive the same BM25 score), yet `search` lists document `B` (corpus row 1)
before `A` (corpus row 0): `scores.argsort()` is ascending and stable, so
`[::-1]` emits tied rows in reverse corpus order, refuting the claim that
equal-score documents appear in their original corpus order. -/
theorem claim6_counterexample :
    (search c6Ranker "x" 5).map SearchResult.item_id = ["B", "A"]
    ∧ (search c6Ranker "x" 5).map SearchResult.score = [1, 1] := by
  decide

end HR

/-! ## Embedding store (`embedding_store.py`) -/

namespace Emb

/-- A loaded embedding store: the vector count, the parsed `id_mapping.json`
(index → item id) and the fitted nearest-neighbour index.  `kneigh i n` stands
for `self.nn.kneighbors(self.emb[i].reshape(1, -1), n_neighbors=n)[1][0]`: the
`n` nearest rows to row `i` by cosine distance, nearest first — a pure function
of the fitted vectors.  The store is `none` when either artifact file is
missing. -/
structure EmbStore where
  nRows : Nat
  idMap : List (Nat × String)
  kneigh : Nat → Nat → List Nat

/-- Model of `rev = {v: k for k, v in self.id_map.items()}`. -/
def revMap (s : EmbStore) : List (String × Nat) :=
  RecSys.dictOf (s.idMap.map (fun p => (p.2, p.1)))

/-- Model of `self.id_map[i]`. -/
def idAt (s : EmbStore) (i : Nat) : String :=
  RecSys.dictGetD s.idMap i ""

/-- The collection loop of `EmbeddingStore.similar`: skip the query row itself,
append ids, break once `len(out) >= k`. -/
def collectNeigh (f : Nat → String) (idx : Nat) : Nat → List Nat → List String
  | _, [] => []
  | k, i :: rest =>
    if i = idx then collectNeigh f idx k rest
    else if k ≤ 1 then [f i]
    else f i :: collectNeigh f idx (k - 1) rest

/-- Model of `EmbeddingStore.similar(item_id, k)`. -/
def emSimilar : Option EmbStore → String → Nat → List String
  | none, _, _ => []
  | some s, item_id, k =>
    match RecSys.dictGet? (revMap s) item_id with
    | none => []
    | some idx => collectNeigh (idAt s) idx k (s.kneigh idx (min (k + 1) s.nRows))

theorem collectNeigh_length_le (f : Nat → String) (idx : Nat) :
    ∀ (l : List Nat) (k : Nat), 1 ≤ k → (collectNeigh f idx k l).length ≤ k := by
  intro l
  induction l with
  | nil => intro k _; simp [collectNeigh]
  | cons i rest ih =>
    intro k hk
    simp only [collectNeigh]
    by_cases hi : i = idx
    · rw [if_pos hi]
      exact ih k hk
    · rw [if_neg hi]
      by_cases hk1 : k ≤ 1
      · rw [if_pos hk1]
        simpa using hk
      · rw [if_neg hk1]
        simp only [List.length_cons]
        have := ih (k - 1) (by omega)
        omega

theorem mem_collectNeigh (f : Nat → String) (idx : Nat) :
    ∀ (l : List Nat) (k : Nat) {x : String}, x ∈ collectNeigh f idx k l →
      ∃ i ∈ l, i ≠ idx ∧ x = f i := by
  intro l
  induction l with
  | nil => intro k x hx; simp [collectNeigh] at hx
  | cons i rest ih =>
    intro k x hx
    simp only [collectNeigh] at hx
    by_cases hi : i = idx
    · rw [if_pos hi] at hx
      obtain ⟨j, hj, hne, he⟩ := ih k hx
      exact ⟨j, List.mem_cons_of_mem i hj, hne, he⟩
    · rw [if_neg hi] at hx
      by_cases hk1 : k ≤ 1
      · rw [if_pos hk1] at hx
        simp only [List.mem_singleton] at hx
        exact ⟨i, List.mem_cons_self i rest, hi, hx⟩
      · rw [if_neg hk1] at hx
        rcases List.mem_cons.mp hx with rfl | hx'
        · exact ⟨i, List.mem_cons_self i rest, hi, rfl⟩
        · obtain ⟨j, hj, hne, he⟩ := ih (k - 1) hx'
          exact ⟨j, List.mem_cons_of_mem i hj, hne, he⟩

theorem dictGet?_isSome_of_mem {κ ν : Type} [DecidableEq κ] {k : κ} :
    ∀ {d : List (κ × ν)}, k ∈ RecSys.dictKeys d → ∃ v, RecSys.dictGet? d k = some v := by
  intro d
  induction d with
  | nil => intro h; simp [RecSys.dictKeys] at h
  | cons p t ih =>
    intro h
    by_cases hp : p.1 = k
    · exact ⟨p.2, by rw [RecSys.dictGet?_cons, if_pos hp]⟩
    · have h' : k ∈ RecSys.dictKeys t := by
        rcases List.mem_cons.mp h with h'' | h''
        · exact absurd h''.symm hp
        · exact h''
      obtain ⟨v, hv⟩ := ih h'
      exact ⟨v, by rw [RecSys.dictGet?_cons, if_neg hp]; exact hv⟩

/-- Claim C7, amended.  For every store state, item id and positive `k`:
`similar` returns at most `k` ids; it returns the empty list when the artifact
files are missing or when the item id is absent from the embedding map; and for
a present item it never returns the item itself *provided* the id map assigns
distinct ids to distinct rows and the neighbour indices are rows of the map.
(The unconditional self-exclusion reading is refuted by
`claim7_counterexample`: an id map that repeats an id across two rows makes
`similar` return the queried id itself.) -/
theorem claim7_similar (s? : Option EmbStore) (item : String) (k : Nat) (hk : 1 ≤ k) :
    (emSimilar s? item k).length ≤ k
    ∧ (s? = none → emSimilar s? item k = [])
    ∧ (∀ s, s? = some s → RecSys.dictGet? (revMap s) item = none →
        emSimilar s? item k = [])
    ∧ (∀ s idx, s? = some s → RecSys.dictGet? (revMap s) item = some idx →
        (∀ p ∈ s.idMap, ∀ q ∈ s.idMap, p.2 = q.2 → p.1 = q.1) →
        (∀ i ∈ s.kneigh idx (min (k + 1) s.nRows), i ∈ RecSys.dictKeys s.idMap) →
        item ∉ emSimilar s? item k) := by
  refine ⟨?_, ?_, ?_, ?_⟩
  · cases s? with
    | none => simpa [emSimilar] using Nat.zero_le k
    | some s =>
      cases hget : RecSys.dictGet? (revMap s) item with
      | none => simp [emSimilar, hget]
      | some idx =>
        simp only [emSimilar, hget]
        exact collectNeigh_length_le (idAt s) idx _ k hk
  · rintro rfl
    rfl
  · rintro s rfl hget
    simp [emSimilar, hget]
  · rintro s idx rfl hget hinj hkeys hmem
    simp only [emSimilar, hget] at hmem
    obtain ⟨i, hi, hne, he⟩ := mem_collectNeigh (idAt s) idx _ k hmem
    have hikey : i ∈ RecSys.dictKeys s.idMap := hkeys i hi
    obtain ⟨v, hv⟩ := dictGet?_isSome_of_mem hikey
    have hvi : (i, v) ∈ s.idMap := RecSys.mem_of_dictGet?_eq_some hv
    have hitemv : item = v := by
      rw [he]
      unfold idAt RecSys.dictGetD
      rw [hv]
      rfl
    have hrev : (item, idx) ∈ s.idMap.map (fun p => (p.2, p.1)) :=
      RecSys.mem_dictOf (RecSys.mem_of_dictGet?_eq_some hget)
    obtain ⟨p, hp, hpe⟩ := List.mem_map.mp hrev
    have hpidx : (idx, item) ∈ s.idMap := by
      have h1 : p.2 = item := congrArg Prod.fst hpe
      have h2 : p.1 = idx := congrArg Prod.snd hpe
      rw [← h1, ← h2]
      exact hp
    have : i = idx := hinj (i, v) hvi (idx, item) hpidx (by rw [← hitemv])
    exact hne this

/-- A well-formed store: three rows with distinct ids; the neighbour query
returns rows nearest-first (the query row itself first, at distance 0). -/
def c7wStore : EmbStore := ⟨3, [(0, "A"), (1, "B"), (2, "C")], fun _ n => [0, 1, 2].take n⟩

theorem claim7_similar_witness :
    1 ≤ 1
    ∧ ((emSimilar (some c7wStore) "A" 1).length ≤ 1
      ∧ (some c7wStore = none → emSimilar (some c7wStore) "A" 1 = [])
      ∧ (∀ s, some c7wStore = some s → RecSys.dictGet? (revMap s) "A" = none →
          emSimilar (some c7wStore) "A" 1 = [])
      ∧ (∀ s idx, some c7wStore = some s → RecSys.dictGet? (revMap s) "A" = some idx →
          (∀ p ∈ s.idMap, ∀ q ∈ s.idMap, p.2 = q.2 → p.1 = q.1) →
          (∀ i ∈ s.kneigh idx (min (1 + 1) s.nRows), i ∈ RecSys.dictKeys s.idMap) →
          "A" ∉ emSimilar (some c7wStore) "A" 1)) :=
  ⟨by decide, claim7_similar (some c7wStore) "A" 1 (by decide)⟩

/-- A store whose `id_mapping.json` assigns the id `A` to both row 0 and row 2
(a duplicated catalog entry with identical embedding vectors).  The reverse map
built on the fly keeps the last binding, so the query for `A` starts at row 2;
the cosine neighbour query for row 2 returns the two zero-distance rows
`[0, 2]`. -/
def c7Store : EmbStore := ⟨3, [(0, "A"), (1, "B"), (2, "A")], fun _ n => [0, 2].take n⟩

/-- Claim C7, counterexample.  `similar("A", 1)` skips the query row index 2 but
not the duplicate row 0, whose id is again `A`: the output is `["A"]`, which
contains the queried item id itself, refuting the claim that `similar` never
includes `item_id` in its output. -/
theorem claim7_counterexample :
    RecSys.dictGet? (revMap c7Store) "A" = some 2
    ∧ emSimilar (some c7Store) "A" 1 = ["A"] := by
  decide

end Emb

/-! ## Score blender (`common/rank_blender.py`) -/

namespace Blend

/-- Model of `total_w = sum(max(0.0, w) for w in weights.values())`. -/
def totalClamped (weights : List (String × ℚ)) : ℚ :=
  (weights.map (fun p => max 0 p.2)).sum

/-- Model of `norm_w = {k: max(0.0, v) / total_w for k, v in weights.items()}`, with
`total_w` replaced by `1` when it is `≤ 0`. -/
def normWeights (weights : List (String × ℚ)) : List (String × ℚ) :=
  weights.map (fun p =>
    (p.1, max 0 p.2 / (if totalClamped weights ≤ 0 then 1 else totalClamped weights)))

/-- Model of `blend_scores(score_dicts, weights)`: weighted-sum accumulation, skipping any
source whose normalized weight is exactly zero. -/
def blend_scores (scoreDicts : List (String × List (String × ℚ)))
    (weights : List (String × ℚ)) : List (String × ℚ) :=
  scoreDicts.foldl
    (fun combined sd =>
      if RecSys.dictGetD (normWeights weights) sd.1 0 = 0 then combined
      else sd.2.foldl
        (fun c p => RecSys.bump c p.1 (RecSys.dictGetD (normWeights weights) sd.1 0 * p.2))
        combined)
    []

theorem sum_map_div {α : Type} (f : α → ℚ) (c : ℚ) :
    ∀ l : List α, (l.map (fun x => f x / c)).sum = (l.map f).sum / c := by
  intro l
  induction l with
  | nil => simp
  | cons a t ih => simp [ih, add_div]

theorem blend_scores_eq_nil_of_zero (weights : List (String × ℚ))
    (hz : ∀ name, RecSys.dictGetD (normWeights weights) name 0 = 0) :
    ∀ m, blend_scores m weights = [] := by
  intro m
  unfold blend_scores
  apply RecSys.foldl_preserve (fun d => d = [])
  · intro d sd _ hd
    rw [if_pos (hz sd.1)]
    exact hd
  · rfl

/-- Claim C8.  `blend_scores` clamps negative weights to zero (every normalized
weight is nonnegative); when the clamped total is positive the normalized
weights sum to exactly `1`; when every weight is `≤ 0` the total is `≤ 0`, every
normalized weight is zero and every source is skipped, so the blend of any score
dicts is empty; `blend_scores({}, w)` is empty for every `w`; and
`blend_scores(m, {})` is empty for every `m`. -/
theorem claim8_blend (weights : List (String × ℚ)) :
    (∀ p ∈ normWeights weights, 0 ≤ p.2)
    ∧ (0 < totalClamped weights → ((normWeights weights).map Prod.snd).sum = 1)
    ∧ ((∀ p ∈ weights, p.2 ≤ 0) →
        totalClamped weights ≤ 0 ∧ (∀ p ∈ normWeights weights, p.2 = 0)
        ∧ ∀ m, blend_scores m weights = [])
    ∧ (∀ w', blend_scores [] w' = [])
    ∧ (∀ m, blend_scores m [] = []) := by
  have hTpos : 0 < (if totalClamped weights ≤ 0 then 1 else totalClamped weights) := by
    by_cases h : totalClamped weights ≤ 0
    · rw [if_pos h]; norm_num
    · rw [if_neg h]; exact lt_of_not_le h
  refine ⟨?_, ?_, ?_, ?_, ?_⟩
  · intro p hp
    obtain ⟨q, _, hqe⟩ := List.mem_map.mp hp
    rw [← hqe]
    exact div_nonneg (le_max_left 0 q.2) (le_of_lt hTpos)
  · intro hpos
    unfold normWeights
    rw [List.map_map]
    rw [show (Prod.snd ∘ fun p : String × ℚ =>
        (p.1, max 0 p.2 / (if totalClamped weights ≤ 0 then 1 else totalClamped weights)))
      = fun p : String × ℚ =>
        max 0 p.2 / (if totalClamped weights ≤ 0 then 1 else totalClamped weights)
      from rfl]
    rw [sum_map_div (fun p : String × ℚ => max 0 p.2) _ weights]
    rw [if_neg (not_le.mpr hpos)]
    exact div_self (ne_of_gt hpos)
  · intro hall
    have htot : totalClamped weights = 0 := by
      unfold totalClamped
      apply List.sum_eq_zero
      intro x hx
      obtain ⟨q, hq, hqe⟩ := List.mem_map.mp hx
      rw [← hqe]
      exact max_eq_left (hall q hq)
    have hnz : ∀ p ∈ normWeights weights, p.2 = 0 := by
      intro p hp
      obtain ⟨q, hq, hqe⟩ := List.mem_map.mp hp
      rw [← hqe]
      simp only
      rw [if_pos (le_of_eq htot), max_eq_left (hall q hq)]
      norm_num
    refine ⟨le_of_eq htot, hnz, ?_⟩
    apply blend_scores_eq_nil_of_zero
    intro name
    cases hget : RecSys.dictGet? (normWeights weights) name with
    | none => simp [RecSys.dictGetD, hget]
    | some v =>
      have hv := hnz (name, v) (RecSys.mem_of_dictGet?_eq_some hget)
      simp only [RecSys.dictGetD, hget, Option.getD_some]
      exact hv
  · intro w'
    rfl
  · intro m
    apply blend_scores_eq_nil_of_zero
    intro name
    rfl

theorem claim8_blend_witness :
    (∀ p ∈ normWeights [("a", -1), ("b", 2)], 0 ≤ p.2)
    ∧ ((normWeights [("a", -1), ("b", 2)]).map Prod.snd).sum = 1
    ∧ (totalClamped [("a", -2)] ≤ 0 ∧ (∀ p ∈ normWeights [("a", -2)], p.2 = 0)
        ∧ ∀ m, blend_scores m [("a", -2)] = [])
    ∧ blend_scores [] [("x", 5)] = []
    ∧ blend_scores [("s", [("i", 3)])] [] = [] :=
  ⟨(claim8_blend [("a", -1), ("b", 2)]).1,
    (claim8_blend [("a", -1), ("b", 2)]).2.1 (by with_unfolding_all decide),
    (claim8_blend [("a", -2)]).2.2.1 (by with_unfolding_all decide),
    (claim8_blend []).2.2.2.1 [("x", 5)],
    (claim8_blend []).2.2.2.2 [("s", [("i", 3)])]⟩

end Blend

/-! ## Evaluator holdout construction (`eval.py`) -/

namespace Ev

/-- One normalized interaction row.  `eval.py` reads `ratings.csv` with
`dtype=str`, then converts only the `rating` column to numbers
(`pd.to_numeric(..., errors="coerce")`, unparsable → `none`); the `timestamp`
column stays a **string**. -/
structure EvalRow where
  user : String
  item : String
  rating : Option ℚ
  ts : String
deriving DecidableEq

/-- The normalized frame: its rows, and whether the `rating` / `timestamp`
columns are present. -/
structure EvalDF where
  rows : List EvalRow
  hasRating : Bool
  hasTs : Bool

/-- The rows of one user's group (row order preserved, as `groupby` does). -/
def groupOf (df : EvalDF) (u : String) : List EvalRow :=
  df.rows.filter (fun r => r.user = u)

/-- Comparison of user keys (pandas `groupby` iterates groups in sorted key
order; string keys compare lexicographically by code point). -/
def strRel : String → String → Prop := fun s t => s.data ≤ t.data

instance : DecidableRel strRel :=
  fun s t => inferInstanceAs (Decidable (s.data ≤ t.data))

instance : IsTotal String strRel := ⟨fun s t => le_total s.data t.data⟩

instance : IsTrans String strRel := ⟨fun _ _ _ h1 h2 => le_trans h1 h2⟩

def sortedUsers (df : EvalDF) : List String :=
  List.insertionSort strRel (RecSys.pyDedup (df.rows.map (fun r => r.user)))

/-- Model of `g.sort_values("timestamp")` compares the **string** timestamps
lexicographically. -/
def tsRel : EvalRow → EvalRow → Prop := fun a b => a.ts.data ≤ b.ts.data

instance : DecidableRel tsRel :=
  fun a b => inferInstanceAs (Decidable (a.ts.data ≤ b.ts.data))

instance : IsTotal EvalRow tsRel := ⟨fun a b => le_total a.ts.data b.ts.data⟩

instance : IsTrans EvalRow tsRel := ⟨fun _ _ _ h1 h2 => le_trans h1 h2⟩

/-- Model of `rating >= 4.0` (a missing/NaN rating compares false). -/
def isPos (r : EvalRow) : Bool :=
  match r.rating with
  | some q => decide (4 ≤ q)
  | none => false

def defaultRow : EvalRow := ⟨"", "", none, ""⟩

/-- Model of `pos = g[g["rating"] >= 4.0] if (g["rating"] >= 4.0).any() else g`. -/
def posPool (g : List EvalRow) : List EvalRow :=
  if g.any isPos then g.filter isPos else g

/-- Model of `_choose_holdout`'s per-group selection.  `pick` models the fixed-seed
pseudo-random index drawn by `DataFrame.sample(1, random_state=42)` (with a
fixed seed this is a deterministic function of the pool; the claims proved here
hold for every such selector).  With a timestamp column the group is sorted by
its timestamp strings and the last row is taken (`iloc[-1]`). -/
def chooseRow (pick : List EvalRow → Nat) (df : EvalDF) (g : List EvalRow) : EvalRow :=
  if df.hasTs then (List.insertionSort tsRel g).getLastD defaultRow
  else if df.hasRating && g.any (fun r => r.rating.isSome) then
    (posPool g).getD (pick (posPool g) % (posPool g).length) defaultRow
  else g.getD (pick g % g.length) defaultRow

/-- Model of `_choose_holdout`: users with fewer than 2 interactions are skipped; each
remaining user contributes the single pair `(user_id, item_id)` of the chosen
row. -/
def chooseHoldout (pick : List EvalRow → Nat) (df : EvalDF) : List (String × String) :=
  (sortedUsers df).filterMap (fun u =>
    if (groupOf df u).length < 2 then none
    else some (u, (chooseRow pick df (groupOf df u)).item))

/-- The holdout step of `evaluate_cf`: raise exactly when the holdout frame is
empty. -/
def evaluateHoldout (pick : List EvalRow → Nat) (df : EvalDF) :
    Except String (List (String × String)) :=
  if chooseHoldout pick df = [] then
    .error "No eligible users for leave-one-out (need >= 2 interactions per user)."
  else .ok (chooseHoldout pick df)

instance {ε α : Type} [DecidableEq ε] [DecidableEq α] : DecidableEq (Except ε α) :=
  fun a b =>
    match a, b with
    | .ok x, .ok y =>
      if h : x = y then isTrue (by rw [h]) else isFalse (fun he => h (Except.ok.inj he))
    | .error x, .error y =>
      if h : x = y then isTrue (by rw [h]) else isFalse (fun he => h (Except.error.inj he))
    | .ok _, .error _ => isFalse (fun he => Except.noConfusion he)
    | .error _, .ok _ => isFalse (fun he => Except.noConfusion he)

/-- The failing input: one user with two interactions whose timestamps straddle
the 9-digit/10-digit epoch boundary. -/
def c9DF : EvalDF :=
  ⟨[⟨"u1", "A", none, "999999999"⟩, ⟨"u1", "B", none, "1000000000"⟩], false, true⟩

/-- Claim C9, failing input.  The claim (and `_choose_holdout`'s own docstring)
says the held-out test item of a user is the *chronologically latest*
interaction when a timestamp column is present.  But the timestamps are strings
(`dtype=str`), and `sort_values("timestamp")` orders them lexicographically:
`"1000000000" < "999999999"` as strings although `999999999 < 1000000000` as
times.  On `c9DF` the code holds out item `A` (timestamp 999999999) even though
item `B` (timestamp 1000000000) is chronologically later.  The no-qualifying-
user error path is exercised too: a frame whose only user has one interaction
raises the descriptive error. -/
theorem claim9_ts_lexicographic_bug :
    chooseHoldout (fun _ => 0) c9DF = [("u1", "A")]
    ∧ evaluateHoldout (fun _ => 0) c9DF = .ok [("u1", "A")]
    ∧ (999999999 : Nat) < 1000000000
    ∧ "1000000000".data < "999999999".data
    ∧ evaluateHoldout (fun _ => 0) ⟨[⟨"u2", "X", none, "1"⟩], false, true⟩
        = .error "No eligible users for leave-one-out (need >= 2 interactions per user)." := by
  decide

end Ev

/-! ## Python call binding of the module-level entry point (`cf_inference.py`) -/

namespace Py

/-- A Python runtime value, as far as the binding model needs one. -/
inductive PyVal where
  | pyStr : String → PyVal
  | pyInt : Int → PyVal
deriving DecidableEq

/-- A positional-or-keyword parameter with an optional default. -/
structure PyParam where
  name : String
  dflt : Option PyVal

/-- Bind keyword arguments onto already-bound names, per Python's call rules:
an unknown keyword or a doubly-bound name raises `TypeError`. -/
def bindKw (params : List PyParam) :
    List (String × PyVal) → List (String × PyVal) → Except String (List (String × PyVal))
  | bound, [] => .ok bound
  | bound, (k, v) :: rest =>
    if params.all (fun p => p.name ≠ k) then .error ("unexpected keyword argument " ++ k)
    else if bound.any (fun b => b.1 = k) then .error ("multiple values for argument " ++ k)
    else bindKw params (bound ++ [(k, v)]) rest

/-- Fill every parameter from the bound names or its default; a parameter left
unbound with no default raises `TypeError: missing required argument`. -/
def fillParams : List PyParam → List (String × PyVal) → Except String (List (String × PyVal))
  | [], _ => .ok []
  | p :: ps, bound =>
    match RecSys.dictGet? bound p.name, p.dflt with
    | some v, _ => (fillParams ps bound).map (fun r => (p.name, v) :: r)
    | none, some v => (fillParams ps bound).map (fun r => (p.name, v) :: r)
    | none, none => .error ("missing required argument: " ++ p.name)

/-- Python's binding of a plain function call: positional arguments map onto the
leading parameters, then keywords, then defaults. -/
def bindCall (params : List PyParam) (pos : List PyVal) (kw : List (String × PyVal)) :
    Except String (List (String × PyVal)) :=
  if params.length < pos.length then .error "too many positional arguments"
  else
    match bindKw params ((params.zip pos).map (fun pq => (pq.1.name, pq.2))) kw with
    | .error e => .error e
    | .ok bound => fillParams params bound

/-- The parameter list of `CFInference.recommend_for_user(self, user_id, k=10)`. -/
def cfMethodParams : List PyParam :=
  [⟨"self", none⟩, ⟨"user_id", none⟩, ⟨"k", some (.pyInt 10)⟩]

/-- The module-level `recommend_for_user(user_id, k=10)`:
`CFRecommender = CFInference` binds the **class**, not an instance, so
`CFRecommender.recommend_for_user(user_id, k=k)` calls the plain function with
`user_id` as its only positional argument — which Python binds to `self`. -/
def recommend_for_user (uid : String) (k : Int) :
    Except String (List (String × PyVal)) :=
  bindCall cfMethodParams [.pyStr uid] [("k", .pyInt k)]

/-- Claim C10.  For every `user_id` and `k`, the module-level `recommend_for_user`
raises `TypeError`: the positional `user_id` is consumed as `self`, the keyword
`k` binds `k`, and the required parameter `user_id` is left unbound with no
default — Python reports the missing required argument. -/
theorem claim10_module_entry_raises (uid : String) (k : Int) :
    recommend_for_user uid k = .error ("missing required argument: " ++ "user_id") := by
  rfl

end Py

end RecSys
